import Mathlib

/-!
Verification development for the tool-calling orchestration core of the
soc-agent browser extension.  The JavaScript source is shallowly embedded:
pure fragments become Lean functions, the stateful batch logic becomes an
explicit step function on a state record, and JS truthiness and fallback
idioms are modelled by small helper functions.  Source locations are cited
next to each definition.
-/

namespace SocAgent

/-! ## JavaScript idioms -/

/-- JS `s || d` for strings: the empty string is falsy. -/
def jsOrS (s d : String) : String := if s = "" then d else s

/-- JS `o || d` for an optional string (`undefined`/`null`/`""` are falsy). -/
def jsOrOptS (o : Option String) (d : String) : String :=
  match o with
  | some s => jsOrS s d
  | none => d

/-- JS truthiness of an optional string (`if (x)` with `x` a string field). -/
def truthyS (o : Option String) : Bool :=
  match o with
  | some s => s != ""
  | none => false

/-! ## Configuration constants

Embedded from `src/unnamed/part_001` (`DEFAULT_CONFIG`). -/

namespace DefaultConfig

/-- `DEFAULT_CONFIG.ui.maxToolCallsPerTurn` (part_001 line 58). -/
def uiMaxToolCallsPerTurn : Nat := 5

/-- `DEFAULT_CONFIG.ui.maxMessageHistory` (part_001 line 48). -/
def uiMaxMessageHistory : Nat := 10

/-- `DEFAULT_CONFIG.ui.maxToolResultLength` (part_001 line 56). -/
def uiMaxToolResultLength : Nat := 2000

/-- `DEFAULT_CONFIG.ui.includeToolResults` (part_001 line 55). -/
def uiIncludeToolResults : Bool := true

end DefaultConfig

/-! ## Stream accumulator

Embedding of `AIAPIService.handleStreamResponse` (src/unnamed/part_008,
lines 164-292).  A parsed SSE frame carries an optional text fragment
(`delta.content`) and an optional list of tool-call delta fragments
(`delta.tool_calls`), each keyed by an integer slot `index`.  The JS code
accumulates the fragments into the object `toolCallsMap`, whose keys are
the slot indices; on stream end `Object.values(toolCallsMap)` lists the
entries in ascending numeric key order (JS integer-keyed property order),
which we model by keeping the association list sorted by key. -/

/-- A partial `function` object inside a tool-call delta fragment. -/
structure DeltaFunction where
  name : Option String
  arguments : Option String
deriving Repr, DecidableEq

/-- One entry of `delta.tool_calls` in a stream frame. -/
structure DeltaToolCall where
  index : Nat
  id : Option String
  ctype : Option String
  function : Option DeltaFunction
deriving Repr, DecidableEq

/-- One parsed stream frame (one `data: {...}` line with a `delta`). -/
structure StreamFrame where
  content : Option String
  tool_calls : Option (List DeltaToolCall)
  finish_reason : Option String
deriving Repr, DecidableEq

/-- A fully accumulated tool call, the value type of `toolCallsMap`
(part_008 lines 237-244). -/
structure AccToolCall where
  id : String
  ctype : String
  name : String
  arguments : String
deriving Repr, DecidableEq

/-- Initial entry created on first sight of a slot index
(part_008 lines 236-245): `id: toolCall.id || ''`,
`type: toolCall.type || 'function'`, empty name and arguments. -/
def initEntry (tc : DeltaToolCall) : AccToolCall :=
  { id := jsOrOptS tc.id ""
    ctype := jsOrOptS tc.ctype "function"
    name := ""
    arguments := "" }

/-- Part_008 lines 247-250: `if (toolCall.function && toolCall.function.name)
{ toolCallsMap[index].function.name = toolCall.function.name; }` —
a non-empty name fragment overwrites the stored name. -/
def applyName (e : AccToolCall) (tc : DeltaToolCall) : AccToolCall :=
  match tc.function with
  | some f => if truthyS f.name then { e with name := f.name.getD "" } else e
  | none => e

/-- Part_008 lines 252-255: a non-empty arguments fragment is appended to
the stored arguments string. -/
def applyArguments (e : AccToolCall) (tc : DeltaToolCall) : AccToolCall :=
  match tc.function with
  | some f =>
    if truthyS f.arguments then
      { e with arguments := e.arguments ++ f.arguments.getD "" }
    else e
  | none => e

/-- Part_008 lines 257-260: a non-empty id fragment overwrites the stored id. -/
def applyId (e : AccToolCall) (tc : DeltaToolCall) : AccToolCall :=
  match tc.id with
  | some i => if i != "" then { e with id := i } else e
  | none => e

/-- The three field updates applied in source order (name, arguments, id). -/
def applyAll (e : AccToolCall) (tc : DeltaToolCall) : AccToolCall :=
  applyId (applyArguments (applyName e tc) tc) tc

/-- `toolCallsMap`: an association list from slot index to accumulated
entry, kept sorted by key in strictly ascending order, which models the
iteration order of integer-keyed JS object properties. -/
abbrev ToolCallsMap := List (Nat × AccToolCall)

/-- Processing one tool-call delta fragment (part_008 lines 233-261):
create the slot entry if absent, then apply the field updates. -/
def mapStep (m : ToolCallsMap) (tc : DeltaToolCall) : ToolCallsMap :=
  match m with
  | [] => [(tc.index, applyAll (initEntry tc) tc)]
  | (k, e) :: rest =>
    if tc.index = k then (k, applyAll e tc) :: rest
    else if tc.index < k then
      (tc.index, applyAll (initEntry tc) tc) :: (k, e) :: rest
    else (k, e) :: mapStep rest tc

/-- All tool-call delta fragments of a frame list, in delivery order. -/
def flatFrags (frames : List StreamFrame) : List DeltaToolCall :=
  frames.flatMap (fun f => f.tool_calls.getD [])

/-- Folding the fragment processing over a fragment list. -/
def buildMap (l : List DeltaToolCall) : ToolCallsMap :=
  l.foldl mapStep []

/-- The `toolCallsMap` after consuming a whole stream (part_008 readStream
loop: per frame, iterate `delta.tool_calls` when present). -/
def streamToolMap (frames : List StreamFrame) : ToolCallsMap :=
  frames.foldl
    (fun m f =>
      match f.tool_calls with
      | some l => l.foldl mapStep m
      | none => m) []

/-- Text accumulation (part_008 lines 226-229 yield only truthy
`delta.content`; sidebar.js line 2627 concatenates the yielded chunks
into `fullContent`). -/
def streamContent (frames : List StreamFrame) : String :=
  frames.foldl
    (fun s f => if truthyS f.content then s ++ f.content.getD "" else s) ""

/-- `result.tool_calls` after stream end (part_008 lines 283-286):
`Object.values(toolCallsMap)` when the map is non-empty, otherwise `null`. -/
def streamToolCalls (frames : List StreamFrame) : Option (List AccToolCall) :=
  let m := streamToolMap frames
  if m.isEmpty then none else some (m.map Prod.snd)

/-! ## Specification-side slot functions

These re-express, per slot, what the spec says the accumulator should
compute; the theorems compare them with the source embedding above. -/

/-- The fragments delivered for one slot, in delivery order. -/
def slotFrags (l : List DeltaToolCall) (i : Nat) : List DeltaToolCall :=
  l.filter (fun tc => tc.index = i)

/-- The arguments payload carried by one fragment (absent fragments
contribute the empty string). -/
def argFragVal (tc : DeltaToolCall) : String :=
  ((tc.function.bind DeltaFunction.arguments).getD "")

/-- Concatenation, in delivery order, of a fragment list's argument
payloads (the spec's expected arguments string). -/
def specConcatArgs (l : List DeltaToolCall) : String :=
  l.foldl (fun s tc => s ++ argFragVal tc) ""

/-- The name payload carried by one fragment, if non-empty. -/
def nameFragVal (tc : DeltaToolCall) : Option String :=
  match tc.function with
  | some f => if truthyS f.name then some (f.name.getD "") else none
  | none => none

/-- The first non-empty name fragment of a fragment list (the spec's
claimed name resolution). -/
def specFirstName : List DeltaToolCall → String
  | [] => ""
  | tc :: r =>
    match nameFragVal tc with
    | some n => n
    | none => specFirstName r

/-- The last non-empty name fragment of a fragment list (what the code
actually computes, since each non-empty fragment overwrites). -/
def specLastName (l : List DeltaToolCall) : String :=
  l.foldl
    (fun acc tc =>
      match nameFragVal tc with
      | some n => n
      | none => acc) ""

/-- Reference per-slot accumulation: initialise from the first fragment,
then apply every fragment in delivery order. -/
def slotAcc : List DeltaToolCall → Option AccToolCall
  | [] => none
  | tc :: r => some (r.foldl applyAll (applyAll (initEntry tc) tc))

/-! ## Sidebar stream consumer

Embedding of the end-of-stream handling in `handleStreamResponse`
(src/sidebar.js, lines 2620-2741): `fullContent` is the concatenation of
the yielded chunks, and after the stream ends the code picks one of four
rendering branches and returns `{content, tool_calls}`. -/

/-- `TextFormatter.markdownToHtml` (src/src/utils/text-formatter.js line
676) starts with `if (!text) return '';`; the conversion applied to
non-empty input is abstracted as the parameter `inner`. -/
def markdownToHtml (inner : String → String) (text : String) : String :=
  if text = "" then "" else inner text

/-- Which rendering branch the end-of-stream code takes
(sidebar.js lines 2659-2693). -/
inductive StreamDisplay where
  | renderedMarkdown
  | rawEscaped
  | toolCallNotice
  | emptyAnomalyNotice
deriving Repr, DecidableEq

/-- Branch selection of sidebar.js lines 2659-2693: render `finalHtml` if
non-blank, else raw content if non-blank, else a tool-call notice when
`tool_calls` is a non-empty array, else the empty-response anomaly notice. -/
def sidebarFinalDisplay (inner : String → String) (frames : List StreamFrame) :
    StreamDisplay :=
  let fullContent := streamContent frames
  let finalHtml := markdownToHtml inner fullContent
  if finalHtml != "" && finalHtml.trim != "" then .renderedMarkdown
  else if fullContent != "" && fullContent.trim != "" then .rawEscaped
  else
    match streamToolCalls frames with
    | some l => if l.length > 0 then .toolCallNotice else .emptyAnomalyNotice
    | none => .emptyAnomalyNotice

/-- The value returned to the caller (sidebar.js lines 2737-2741). -/
structure StreamReturn where
  content : String
  tool_calls : Option (List AccToolCall)
deriving Repr, DecidableEq

/-- Sidebar.js lines 2737-2741: return `{content: fullContent || '',
tool_calls: toolCalls}` where `toolCalls = response.tool_calls || null`. -/
def sidebarStreamReturn (frames : List StreamFrame) : StreamReturn :=
  { content := streamContent frames
    tool_calls := streamToolCalls frames }

/-! ## JSON value model and host-primitive environment -/

/-- A JSON/JS value.  Numbers are modelled as integers; the claims under
verification never depend on non-integral numerics. -/
inductive JSValue where
  | vNull
  | vBool (b : Bool)
  | vNum (n : Int)
  | vStr (s : String)
  | vArr (elems : List JSValue)
  | vObj (fields : List (String × JSValue))
deriving Repr

mutual

/-- Structural equality of JS values, modelling `===`/SameValueZero on the
scalar values the schemas use. -/
def beqVal : JSValue → JSValue → Bool
  | .vNull, .vNull => true
  | .vBool a, .vBool b => a == b
  | .vNum a, .vNum b => a == b
  | .vStr a, .vStr b => a == b
  | .vArr a, .vArr b => beqValList a b
  | .vObj a, .vObj b => beqValFields a b
  | _, _ => false

/-- Element-wise equality of JS value lists. -/
def beqValList : List JSValue → List JSValue → Bool
  | [], [] => true
  | a :: ar, b :: br => beqVal a b && beqValList ar br
  | _, _ => false

/-- Field-wise equality of JS object field lists. -/
def beqValFields : List (String × JSValue) → List (String × JSValue) → Bool
  | [], [] => true
  | (k1, v1) :: r1, (k2, v2) :: r2 => k1 == k2 && beqVal v1 v2 && beqValFields r1 r2
  | _, _ => false

end

instance : BEq JSValue := ⟨beqVal⟩

/-- JS `typeof` on the modelled values (`typeof null` is `"object"`). -/
def typeofJS : JSValue → String
  | .vNull => "object"
  | .vBool _ => "boolean"
  | .vNum _ => "number"
  | .vStr _ => "string"
  | .vArr _ => "object"
  | .vObj _ => "object"

/-- JS `Array.isArray`. -/
def isArrayJS : JSValue → Bool
  | .vArr _ => true
  | _ => false

/-- JS truthiness of a value (`Boolean(v)`). -/
def truthyJS : JSValue → Bool
  | .vNull => false
  | .vBool b => b
  | .vNum n => n != 0
  | .vStr s => s != ""
  | .vArr _ => true
  | .vObj _ => true

mutual

/-- JS `String(v)` on the modelled values.  Arrays stringify as their
comma-joined elements, objects as `[object Object]`. -/
def jsToString : JSValue → String
  | .vNull => "null"
  | .vBool b => cond b "true" "false"
  | .vNum n => toString n
  | .vStr s => s
  | .vArr l => jsListToString l
  | .vObj _ => "[object Object]"

/-- Comma-joined element strings of an array (null elements stringify
to the empty string, as in JS). -/
def jsListToString : List JSValue → String
  | [] => ""
  | [v] => jsElemToString v
  | v :: rest => jsElemToString v ++ "," ++ jsListToString rest

/-- One array element inside `Array.prototype.toString`. -/
def jsElemToString : JSValue → String
  | .vNull => ""
  | v => jsToString v

end

/-- Host primitives the embedded code calls but whose innards no claim
depends on: `JSON.parse` (`none` models a thrown SyntaxError),
`parseInt(s, 10)` and `parseFloat(s)` (`none` models `NaN`; restricted to
the integer-valued number model). -/
structure JsEnv where
  jsonParse : String → Option JSValue
  parseIntJS : String → Option Int
  parseFloatJS : String → Option Int

/-! ## Argument validator

Embedding of `validateAndNormalizeToolArgs` (src/sidebar.js, lines
3696-3846) and the tool cache lookup it performs. -/

/-- One property schema (`properties[paramName]`). -/
structure ParamSchema where
  ptype : Option String
  enumVals : Option (List JSValue)
  format : Option String
deriving Repr

/-- A tool's `inputSchema` (fields optional, the code applies
`schema.properties || {}` and `schema.required || []`). -/
structure InputSchema where
  properties : Option (List (String × ParamSchema))
  required : Option (List String)
deriving Repr

/-- A cached MCP tool definition. -/
structure ToolDef where
  name : String
  inputSchema : Option InputSchema
deriving Repr

/-- Property read on a JS object modelled as a field list. -/
def objGet (fields : List (String × JSValue)) (k : String) : Option JSValue :=
  (fields.find? (fun p => p.1 = k)).map Prod.snd

/-- Sidebar.js lines 3730-3735: every required parameter must be present
and neither null nor undefined, else the function throws. -/
def checkRequired (fields : List (String × JSValue)) :
    List String → Except String Unit
  | [] => .ok ()
  | r :: rest =>
    match objGet fields r with
    | none => .error ("missing required parameter " ++ r)
    | some .vNull => .error ("missing required parameter " ++ r)
    | some _ => checkRequired fields rest

/-- JS `Array.prototype.includes` under the structural value model. -/
def jsIncludes (l : List JSValue) (v : JSValue) : Bool :=
  l.any (fun x => x == v)

/-- The type-coercion chain of sidebar.js lines 3753-3809, one branch per
declared type, applied to a parameter value. -/
def typeNormalize (env : JsEnv) (pt : Option String) (v : JSValue) : JSValue :=
  if pt = some "string" ∧ typeofJS v ≠ "string" then
    .vStr (jsToString v)
  else if pt = some "number" ∨ pt = some "integer" then
    match v with
    | .vStr s =>
      match (if pt = some "integer" then env.parseIntJS s else env.parseFloatJS s) with
      | some n => .vNum n
      | none => v
    | _ => v
  else if pt = some "boolean" ∧ typeofJS v ≠ "boolean" then
    match v with
    | .vStr s => .vBool (s.toLower = "true" || s = "1")
    | _ => .vBool (truthyJS v)
  else if pt = some "array" ∧ ¬ isArrayJS v then
    match v with
    | .vStr s =>
      match env.jsonParse s with
      | some p => if isArrayJS p then p else .vArr [v]
      | none => .vArr [v]
    | _ => .vArr [v]
  else if pt = some "object" ∧ typeofJS v ≠ "object" then
    match v with
    | .vStr s =>
      match env.jsonParse s with
      | some p => p
      | none => v
    | _ => v
  else v

/-- Normalisation plus the enum membership check (sidebar.js lines
3811-3817); the format check (3820-3827) only logs and is omitted from
the result.  The error corresponds to the thrown enum failure. -/
def normalizeParam (env : JsEnv) (ps : ParamSchema) (v : JSValue) :
    Except String JSValue :=
  let normalized := typeNormalize env ps.ptype v
  match ps.enumVals with
  | some l =>
    if jsIncludes l normalized then .ok normalized
    else .error "invalid enum value"
  | none => .ok normalized

/-- The parameter loop of sidebar.js lines 3738-3838: unknown parameters
pass through; known parameters are normalised inside a try/catch that, on
failure, rethrows for required parameters and keeps the original value
otherwise. -/
def processEntries (env : JsEnv) (props : List (String × ParamSchema))
    (required : List String) :
    List (String × JSValue) → Except String (List (String × JSValue))
  | [] => .ok []
  | (p, v) :: rest =>
    match props.find? (fun q => q.1 = p) with
    | none =>
      (processEntries env props required rest).map (fun tail => (p, v) :: tail)
    | some (_, ps) =>
      match normalizeParam env ps v with
      | .ok nv =>
        (processEntries env props required rest).map (fun tail => (p, nv) :: tail)
      | .error e =>
        if required.contains p then .error e
        else
          (processEntries env props required rest).map (fun tail => (p, v) :: tail)

/-- `validateAndNormalizeToolArgs` (sidebar.js lines 3696-3846).  A
non-object argument value yields the empty object (3698-3701); a missing
cache entry, tool definition or input schema passes the arguments through
(3704-3715); otherwise required parameters are checked and every entry is
validated in order. -/
def validateAndNormalizeToolArgs (env : JsEnv)
    (mcpToolsCache : List (String × List ToolDef)) (toolName : String)
    (args : JSValue) (serviceId : String) : Except String JSValue :=
  match args with
  | .vObj fields =>
    match mcpToolsCache.find? (fun p => p.1 = serviceId) with
    | none => .ok (.vObj fields)
    | some (_, tools) =>
      match tools.find? (fun t => t.name = toolName) with
      | none => .ok (.vObj fields)
      | some td =>
        match td.inputSchema with
        | none => .ok (.vObj fields)
        | some schema =>
          let props := schema.properties.getD []
          let req := schema.required.getD []
          match checkRequired fields req with
          | .error e => .error e
          | .ok _ =>
            match processEntries env props req fields with
            | .ok validated => .ok (.vObj validated)
            | .error e => .error e
  | _ => .ok (.vObj [])

/-! ## Tool-call extraction and dispatch

Embedding of `FunctionCallAdapter.extractToolCalls` (src/unnamed/part_004,
lines 125-179) and the dispatch portion of `handleFunctionCalls`
(src/sidebar.js, lines 3519-3670).  The id strings the code fabricates
from `Date.now()` and `Math.random()` are modelled by generator functions
`synth`/`synth2` supplied as parameters, indexed by the position of the
call inside the turn. -/

/-- JS `s.trim()`: strip leading and trailing whitespace (implemented
over the character list so that it reduces during evaluation). -/
def jsTrim (s : String) : String :=
  ⟨((s.data.dropWhile Char.isWhitespace).reverse.dropWhile
      Char.isWhitespace).reverse⟩

/-- A normalised tool call as returned by `extractToolCalls`
(part_004 lines 170-177). -/
structure ParsedCall where
  id : String
  ctype : String
  name : String
  arguments : JSValue
deriving Repr

/-- `extractToolCalls` (part_004 lines 125-179): parse each call's
arguments string (empty string becomes the empty object, a parse failure
is rethrown and aborts the extraction), fall back to a generated id when
the incoming one is falsy, and keep the function name. -/
def extractToolCalls (env : JsEnv) (synth : Nat → String)
    (tool_calls : List AccToolCall) : Except String (List ParsedCall) :=
  go 0 tool_calls
where
  go (k : Nat) : List AccToolCall → Except String (List ParsedCall)
    | [] => .ok []
    | c :: rest =>
      let pargs : Except String JSValue :=
        if jsTrim c.arguments = "" then .ok (.vObj [])
        else
          match env.jsonParse c.arguments with
          | some p => .ok p
          | none => .error "failed to parse arguments"
      match pargs with
      | .error e => .error e
      | .ok a =>
        (go (k + 1) rest).map
          (fun tail =>
            { id := jsOrS c.id (synth k)
              ctype := jsOrS c.ctype "function"
              name := c.name
              arguments := a } :: tail)

/-- JS `n || d` on the modelled numeric config values (0 is falsy). -/
def jsOrNat (n d : Nat) : Nat := if n = 0 then d else n

/-- `MAX_RECURSION_DEPTH = DEFAULT_CONFIG.ui.maxToolCallsPerTurn || 5`
(sidebar.js line 3522). -/
def MAX_RECURSION_DEPTH : Nat := jsOrNat DefaultConfig.uiMaxToolCallsPerTurn 5

/-- An MCP service entry as used by routing. -/
structure Service where
  id : String
  enabled : Bool
deriving Repr, DecidableEq

/-- `findServiceIdByTool` (sidebar.js lines 3680-3690): the first enabled
service whose cached tool list contains the name. -/
def findServiceIdByTool (mcpServices : List Service)
    (mcpToolsCache : List (String × List ToolDef)) (toolName : String) :
    Option String :=
  mcpServices.findSome?
    (fun s =>
      if s.enabled then
        match mcpToolsCache.find? (fun p => p.1 = s.id) with
        | some (_, tools) =>
          if tools.any (fun t => t.name = toolName) then some s.id else none
        | none => none
      else none)

/-- The per-call intent record built at sidebar.js lines 3576-3580. -/
structure ToolIntent where
  toolName : String
  args : JSValue
  toolCallId : String
deriving Repr

/-- The unified batch record created at sidebar.js lines 3607-3618 and
mutated by the completion/cancellation handlers (`cancelled` starts out
absent, i.e. falsy). -/
structure BatchRec where
  tools : List String
  results : List String
  totalCount : Nat
  autoCount : Nat
  manualCount : Nat
  cancelled : Bool
  recursionDepth : Nat
deriving Repr, DecidableEq

/-- Everything observable about one entry into `handleFunctionCalls`
(sidebar.js lines 3519-3670): whether the recursion guard fired (3523),
whether `showError` ran, which calls survived the slice (3556), the
auto/manual partition with resolved service ids (3563-3599), the calls
surfaced as missing-route prompts (3584-3588), and the created batch
(3602-3618). -/
structure DispatchResult where
  recursionLimitHit : Bool
  errorShown : Bool
  dispatchedCalls : List ParsedCall
  autoTools : List (ToolIntent × String)
  manualTools : List (ToolIntent × String)
  missingRoute : List ToolIntent
  batch : Option BatchRec
deriving Repr

/-- The partition loop of sidebar.js lines 3566-3599 over the sliced
calls: skip calls without a function name, give each remaining call an
effective id, and route it to auto, manual or missing-route. -/
def partitionCalls (synth2 : Nat → String) (mcpServices : List Service)
    (mcpToolsCache : List (String × List ToolDef))
    (toolsAutoExecute : List (String × Bool)) :
    Nat → List ParsedCall →
    List (ToolIntent × String) × List (ToolIntent × String) × List ToolIntent
  | _, [] => ([], [], [])
  | k, c :: rest =>
    let (autoT, manualT, missing) :=
      partitionCalls synth2 mcpServices mcpToolsCache toolsAutoExecute (k + 1) rest
    if c.name = "" then (autoT, manualT, missing)
    else
      let toolCallId := jsOrS c.id (synth2 k)
      let intent : ToolIntent :=
        { toolName := c.name, args := c.arguments, toolCallId := toolCallId }
      match findServiceIdByTool mcpServices mcpToolsCache c.name with
      | none => (autoT, manualT, intent :: missing)
      | some serviceId =>
        let key := serviceId ++ ":" ++ c.name
        let isAuto :=
          match toolsAutoExecute.find? (fun p => p.1 = key) with
          | some (_, b) => b
          | none => false
        if isAuto then ((intent, serviceId) :: autoT, manualT, missing)
        else (autoT, (intent, serviceId) :: manualT, missing)

/-- The dispatch portion of `handleFunctionCalls` (sidebar.js lines
3519-3670), given the already-extracted calls. -/
def handleFunctionCallsDispatch (synth2 : Nat → String)
    (mcpServices : List Service) (mcpToolsCache : List (String × List ToolDef))
    (toolsAutoExecute : List (String × Bool)) (recursionDepth : Nat)
    (parsedCalls : List ParsedCall) : DispatchResult :=
  if recursionDepth ≥ MAX_RECURSION_DEPTH then
    { recursionLimitHit := true, errorShown := true, dispatchedCalls := []
      autoTools := [], manualTools := [], missingRoute := [], batch := none }
  else if parsedCalls.isEmpty then
    { recursionLimitHit := false, errorShown := false, dispatchedCalls := []
      autoTools := [], manualTools := [], missingRoute := [], batch := none }
  else
    let maxCalls := DefaultConfig.uiMaxToolCallsPerTurn
    let calls := parsedCalls.take maxCalls
    let (autoT, manualT, missing) :=
      partitionCalls synth2 mcpServices mcpToolsCache toolsAutoExecute 0 calls
    let batch :=
      if autoT.length > 0 ∨ manualT.length > 0 then
        some
          { tools :=
              autoT.map (fun t => t.1.toolName) ++
                manualT.map (fun t => t.1.toolName)
            results := []
            totalCount := autoT.length + manualT.length
            autoCount := autoT.length
            manualCount := manualT.length
            cancelled := false
            recursionDepth := recursionDepth }
      else none
    { recursionLimitHit := false, errorShown := false, dispatchedCalls := calls
      autoTools := autoT, manualTools := manualT, missingRoute := missing
      batch := batch }

/-! ## Recursion-depth plumbing

Embedding of the depth a new round is entered with.  `sendToolResultsToAI`
(sidebar.js line 5030) accepts `batchId = null` and recurses at line 5235
with `batchRecursionDepth + 1`, where line 5219 computes
`batchRecursionDepth = batchId && this.pendingManualTools[batchId]?.recursionDepth || 0`.
All call sites on the normal completion path (lines 1036, 4414, 4430)
invoke `sendToolResultsToAI(results, originalQuery)` without the third
argument, so `batchId` is `null` there. -/

/-- Sidebar.js line 5219.  JS: a null `batchId`, a missing batch or a
stored depth of 0 all yield 0. -/
def batchRecursionDepthOf (pendingManualTools : List (String × BatchRec))
    (batchId : Option String) : Nat :=
  match batchId with
  | none => 0
  | some b =>
    match pendingManualTools.find? (fun p => p.1 = b) with
    | some (_, rec) => rec.recursionDepth
    | none => 0

/-- The `batchId` value actually passed by the normal completion call
sites (sidebar.js lines 1036, 4414 and 4430 call
`sendToolResultsToAI(results, query)` with the third parameter left to its
`null` default). -/
def normalResubmitBatchIdArg : Option String := none

/-- The depth `handleFunctionCalls` is re-entered with on a resubmission
round (sidebar.js line 5235). -/
def resubmitDepth (pendingManualTools : List (String × BatchRec)) : Nat :=
  batchRecursionDepthOf pendingManualTools normalResubmitBatchIdArg + 1

/-- The recursion depth of the n-th round of a root user turn in which the
model keeps requesting tool calls: round 0 enters with depth 0
(sidebar.js line 1620), every later round enters with the depth computed
by the resubmission path. -/
def roundDepth (pendingManualTools : List (String × BatchRec)) : Nat → Nat
  | 0 => 0
  | _ + 1 => resubmitDepth pendingManualTools

/-! ## Batch completion and cancellation

Embedding of the batch bookkeeping shared by `handleToolExecution`
(sidebar.js lines 991-1049), the tail of `batchAutoExecuteTools` (lines
4377-4425) and `handleToolCancellation` (lines 1123-1203) as a step
function over an explicit state.  One event is one handler run; the JS
event loop runs handlers atomically, so an arbitrary interleaving of
completions and cancellations is an arbitrary event list.  The batch
cleanup that the code defers with `setTimeout` (lines 1185-1190,
1198-1203) falls outside the race window modelled here. -/

/-- One recorded tool result (fields beyond the name do not influence the
control flow). -/
structure ToolResultRec where
  toolName : String
deriving Repr, DecidableEq

/-- The orchestration state touched by the completion/cancellation racing
handlers: the pending batch, the per-conversation result cache
(`getToolResultsFromCache`), the appended tool-role messages, and counters
for each of the downstream actions. -/
structure OrchState where
  batch : Option BatchRec
  cache : List ToolResultRec
  toolLog : List ToolResultRec
  normalFires : Nat
  cancelFires : Nat
  errorNotices : Nat
deriving Repr, DecidableEq

/-- One event: a completion handler recording a non-empty group of results
(a manual tool completion records one, the auto-execution tail records all
auto results at once), or a user cancellation. -/
inductive BatchEvent where
  | complete (rs : List ToolResultRec)
  | cancel
deriving Repr, DecidableEq

/-- A completion handler (sidebar.js lines 959-1049 for manual tools,
4302-4425 for the auto tail): the tool-role messages and cache entries are
appended first, then the batch results grow, then — unless the batch was
cancelled (checked at 1014/4392 and re-checked at 1023/4401) — the batch
completing triggers `sendToolResultsToAI` and the batch is deleted
(1036-1045 / 4414-4423). -/
def completeStep (st : OrchState) (rs : List ToolResultRec) : OrchState :=
  let st := { st with toolLog := st.toolLog ++ rs, cache := st.cache ++ rs }
  match st.batch with
  | some b =>
    let b := { b with results := b.results ++ rs.map ToolResultRec.toolName }
    if b.cancelled then { st with batch := some b }
    else if b.results.length = b.totalCount then
      if b.cancelled then { st with batch := some b }
      else { st with batch := none, normalFires := st.normalFires + 1 }
    else { st with batch := some b }
  | none => st

/-- A cancellation handler (sidebar.js lines 1123-1203): a second
cancellation of an already-cancelled batch returns early (1127-1130);
otherwise `cancelled` is set (1132) and, when the cache holds at least one
result (1159), `sendToolResultsToAIWithCancellation` runs once (1176),
else only an error notice is shown (1195). -/
def cancelStep (st : OrchState) : OrchState :=
  match st.batch with
  | some b =>
    if b.cancelled then st
    else
      let b := { b with cancelled := true }
      if st.cache.length > 0 then
        { st with batch := some b, cancelFires := st.cancelFires + 1 }
      else
        { st with batch := some b, errorNotices := st.errorNotices + 1 }
  | none => st

/-- One step of the batch state machine. -/
def batchStep (st : OrchState) : BatchEvent → OrchState
  | .complete rs => completeStep st rs
  | .cancel => cancelStep st

/-- Running a list of events. -/
def runBatch (st : OrchState) (evs : List BatchEvent) : OrchState :=
  evs.foldl batchStep st

/-- The state right after `handleFunctionCalls` created a batch of
`totalCount` tools (sidebar.js lines 3607-3618), with whatever cache and
log contents earlier rounds left behind. -/
def initOrchState (totalCount : Nat) (recursionDepth : Nat)
    (cache0 toolLog0 : List ToolResultRec) : OrchState :=
  { batch :=
      some
        { tools := [], results := [], totalCount := totalCount
          autoCount := 0, manualCount := 0, cancelled := false
          recursionDepth := recursionDepth }
    cache := cache0, toolLog := toolLog0
    normalFires := 0, cancelFires := 0, errorNotices := 0 }

/-- The number of results an event records. -/
def evSize : BatchEvent → Nat
  | .complete rs => rs.length
  | .cancel => 0

/-- Total results recorded by an event list. -/
def sumSizes (evs : List BatchEvent) : Nat :=
  (evs.map evSize).sum

/-! ## Conversation log correlation

Embedding of the id flow from a streamed assistant turn into the appended
tool-role messages.  `handleStreamResponse` saves the assistant message
with the accumulated `tool_calls` (sidebar.js lines 2713-2729);
`handleFunctionCalls` derives each dispatched call's `toolCallId` from the
extracted id (line 3574), and the execution handlers append tool-role
messages carrying that id (lines 959-972, 4302-4318). -/

/-- A conversation message, restricted to the fields the correlation
invariant reads. -/
inductive ConvMsg where
  | assistantTurn (content : String) (tool_calls : List AccToolCall)
  | toolTurn (tool_call_id : String) (name : String) (content : String)
  | userTurn (content : String)
deriving Repr, DecidableEq

/-- Executable check of the correlation invariant: scanning left to right,
every tool-role message's `tool_call_id` must occur among the ids of the
`toolCalls` of some strictly earlier assistant message (`seen` carries the
ids collected so far). -/
def checkToolCorrelation (seen : List String) : List ConvMsg → Bool
  | [] => true
  | .assistantTurn _ tcs :: r =>
    checkToolCorrelation (seen ++ tcs.map AccToolCall.id) r
  | .toolTurn tid _ _ :: r =>
    seen.contains tid && checkToolCorrelation seen r
  | .userTurn _ :: r => checkToolCorrelation seen r

/-- The assistant message saved at sidebar.js lines 2713-2729: content
falls back to a placeholder when empty but tool calls exist, and the
accumulated `tool_calls` are attached when non-empty. -/
def savedAssistantMsg (fullContent : String) (tool_calls : List AccToolCall) :
    ConvMsg :=
  let messageContent :=
    jsOrS fullContent (if tool_calls.length > 0 then "[工具调用中...]" else "")
  .assistantTurn messageContent (if tool_calls.length > 0 then tool_calls else [])

/-- The tool-role messages a dispatch eventually appends: every routed
intent (auto, manual or missing-route, once the human runs it) produces
one message with `tool_call_id` equal to the intent's `toolCallId`
(sidebar.js lines 959-972 and 4302-4318; `results` gives each execution's
result content). -/
def turnToolMessages (d : DispatchResult) (results : ToolIntent → String) :
    List ConvMsg :=
  (d.autoTools.map Prod.fst ++ d.manualTools.map Prod.fst ++ d.missingRoute).map
    (fun intent => ConvMsg.toolTurn intent.toolCallId intent.toolName (results intent))

/-- One whole streamed turn as appended to the conversation: the assistant
message first, then the tool-role messages of the dispatch of its
extracted calls (an extraction failure aborts before anything is
dispatched, leaving only the assistant message). -/
def appendStreamedTurn (env : JsEnv) (synth synth2 : Nat → String)
    (mcpServices : List Service) (mcpToolsCache : List (String × List ToolDef))
    (toolsAutoExecute : List (String × Bool)) (recursionDepth : Nat)
    (tool_calls : List AccToolCall) (fullContent : String)
    (results : ToolIntent → String) : List ConvMsg :=
  let assistant := savedAssistantMsg fullContent tool_calls
  match extractToolCalls env synth tool_calls with
  | .error _ => [assistant]
  | .ok parsed =>
    let d :=
      handleFunctionCallsDispatch synth2 mcpServices mcpToolsCache
        toolsAutoExecute recursionDepth parsed
    assistant :: turnToolMessages d results

/-! ## Message building

Embedding of `AIAPIService.buildMessages` (src/unnamed/part_008, lines
297-397). -/

/-- Message roles (`MESSAGE_ROLES`, src/src/config/constants.js). -/
inductive MsgRole where
  | user
  | assistant
  | system
  | tool
deriving Repr, DecidableEq

/-- A stored conversation message as `buildMessages` reads it (`none`
models an absent/null field). -/
structure HistMsg where
  role : MsgRole
  content : Option String
  tool_calls : Option (List AccToolCall)
  tool_call_id : Option String
  toolCallId : Option String
  name : Option String
  toolName : Option String
  result : Option String
deriving Repr, DecidableEq

/-- An outgoing request message. -/
structure OutMsg where
  role : MsgRole
  content : Option String
  tool_calls : Option (List AccToolCall)
  tool_call_id : Option String
  name : Option String
deriving Repr, DecidableEq

/-- JS `history.slice(-n)`: the last `n` elements (all of them when the
list is shorter). -/
def jsSliceLast (n : Nat) (l : List α) : List α :=
  l.drop (l.length - n)

/-- JS `msg.content || null`. -/
def jsOrNull (o : Option String) : Option String :=
  match o with
  | some s => if s = "" then none else some s
  | none => none

/-- The tool-role branch of part_008 lines 319-351: resolve the content
(falling back to the stringified result), truncate it to
`maxToolResultLength`, and build the standard function-calling tool
message.  `msg.result` is carried pre-stringified in the model. -/
def buildToolMessage (fallbackCallId : String) (msg : HistMsg) : OutMsg :=
  let toolContent0 := msg.content.getD ""
  let toolContent1 :=
    if toolContent0 = "" then
      match msg.result with
      | some r => r
      | none => toolContent0
    else toolContent0
  let maxLen := DefaultConfig.uiMaxToolResultLength
  let toolContent :=
    if maxLen > 0 ∧ toolContent1.length > maxLen then
      toolContent1.take maxLen ++ "\n...(结果已截断)"
    else toolContent1
  { role := .tool
    content := some toolContent
    tool_calls := none
    tool_call_id :=
      some (jsOrOptS msg.tool_call_id (jsOrOptS msg.toolCallId fallbackCallId))
    name := some (jsOrOptS msg.name (jsOrOptS msg.toolName "unknown_tool")) }

/-- The per-message push of part_008 lines 317-380. -/
def pushHistMsg (shouldIncludeTools : Bool) (fallbackCallId : String)
    (msg : HistMsg) : List OutMsg :=
  match msg.role with
  | .tool =>
    if shouldIncludeTools then [buildToolMessage fallbackCallId msg] else []
  | .assistant =>
    let contentA := jsOrNull msg.content
    let toolCallsA :=
      match msg.tool_calls with
      | some l => if l.length > 0 then some l else none
      | none => none
    if contentA.isSome ∨ toolCallsA.isSome then
      [{ role := .assistant, content := contentA, tool_calls := toolCallsA
         tool_call_id := none, name := none }]
    else []
  | r =>
    match msg.content with
    | some c =>
      if c = "" then []
      else
        [{ role := r, content := some c, tool_calls := none
           tool_call_id := none, name := none }]
    | none => []

/-- `buildMessages` (part_008 lines 297-397): optional system prompt, the
last `maxMessageHistory` history messages pushed per role, then the
current query unless it already ends the recent history. -/
def buildMessages (cfgIncludeToolResults : Option Bool)
    (fallbackCallId : String) (query : String) (conversationHistory : List HistMsg)
    (systemPrompt : Option String) (includeToolResults : Option Bool) :
    List OutMsg :=
  let shouldIncludeTools :=
    match includeToolResults with
    | some b => b
    | none =>
      match cfgIncludeToolResults with
      | some b => b
      | none => DefaultConfig.uiIncludeToolResults
  let sysMsgs : List OutMsg :=
    match systemPrompt with
    | some sp =>
      [{ role := .system, content := some sp, tool_calls := none
         tool_call_id := none, name := none }]
    | none => []
  let recentMessages :=
    jsSliceLast DefaultConfig.uiMaxMessageHistory conversationHistory
  let histMsgs :=
    recentMessages.flatMap (pushHistMsg shouldIncludeTools fallbackCallId)
  let lastMessage := recentMessages.getLast?
  let isQueryAlreadyInHistory : Bool :=
    match lastMessage with
    | some lm =>
      lm.role == MsgRole.user &&
        (match lm.content with
         | some c => c == query
         | none => false)
    | none => false
  let queryMsgs : List OutMsg :=
    if isQueryAlreadyInHistory then []
    else
      [{ role := .user, content := some query, tool_calls := none
         tool_call_id := none, name := none }]
  sysMsgs ++ histMsgs ++ queryMsgs

/-! ## Auxiliary definitions used by the theorem statements -/

/-- The assistant-declared tool-call ids collected while scanning a
message list (the `seen` accumulator of `checkToolCorrelation`). -/
def collectIds : List ConvMsg → List String
  | [] => []
  | .assistantTurn _ tcs :: r => tcs.map AccToolCall.id ++ collectIds r
  | .toolTurn _ _ _ :: r => collectIds r
  | .userTurn _ :: r => collectIds r

/-- A value has the type a schema property declares, in the sense the
validator tests it (`typeof` and `Array.isArray`); an absent or
unrecognised declared type constrains nothing. -/
def typeMatches (pt : Option String) (v : JSValue) : Prop :=
  match pt with
  | some "string" => typeofJS v = "string"
  | some "number" => typeofJS v = "number"
  | some "integer" => typeofJS v = "number"
  | some "boolean" => typeofJS v = "boolean"
  | some "array" => isArrayJS v = true
  | some "object" => typeofJS v = "object"
  | _ => True

/-- A concrete environment whose host primitives are never consulted by
the concrete evaluations below. -/
def inertEnv : JsEnv :=
  { jsonParse := fun _ => none
    parseIntJS := fun _ => none
    parseFloatJS := fun _ => none }

/-- Concrete stream for the C6 counterexample: slot 0 receives the
non-empty name fragment "alpha" and later the non-empty name fragment
"beta". -/
def framesC6 : List StreamFrame :=
  [ { content := none
      tool_calls :=
        some
          [{ index := 0, id := some "call_1", ctype := some "function"
             function := some { name := some "alpha", arguments := none } }]
      finish_reason := none },
    { content := none
      tool_calls :=
        some
          [{ index := 0, id := none, ctype := none
             function := some { name := some "beta", arguments := none } }]
      finish_reason := some "tool_calls" } ]

/-- Concrete stream for the C7 witness: no text fragments at all, one
complete tool-call slot. -/
def framesC7 : List StreamFrame :=
  [ { content := none
      tool_calls :=
        some
          [{ index := 0, id := some "call_9", ctype := some "function"
             function := some { name := some "ip_lookup", arguments := none } }]
      finish_reason := none },
    { content := none
      tool_calls :=
        some
          [{ index := 0, id := none, ctype := none
             function := some { name := none, arguments := some "payload" } }]
      finish_reason := some "tool_calls" } ]

/-- Concrete accumulated assistant tool call with an absent id (the
stream never delivered one, so the accumulator left the initial `''`),
used by the C4 counterexample. -/
def toolCallsC4 : List AccToolCall :=
  [{ id := "", ctype := "function", name := "lookup", arguments := "" }]

/-- A concrete id generator standing in for the
`call_Date.now_random` fabrication. -/
def synthGen (k : Nat) : String := "call synth " ++ toString k

/-- A second concrete id generator for the fallback at sidebar.js 3574. -/
def synthGen2 (k : Nat) : String := "call fb " ++ toString k

/-- Concrete service table for the C4 scenarios. -/
def servicesC4 : List Service := [{ id := "svc", enabled := true }]

/-- Concrete tool cache for the C4 scenarios. -/
def toolsCacheC4 : List (String × List ToolDef) :=
  [("svc", [{ name := "lookup", inputSchema := none }])]

/-- Concrete auto-execution map for the C4 scenarios. -/
def autoMapC4 : List (String × Bool) := [("svc:lookup", true)]

/-- Concrete input schema for the C8 witness: one required string
parameter with an enum. -/
def ipSchemaC8 : InputSchema :=
  { properties :=
      some
        [("ip", { ptype := some "string", enumVals := none, format := none }),
         ("level",
          { ptype := some "string"
            enumVals := some [JSValue.vStr "low", JSValue.vStr "high"]
            format := none })]
    required := some ["ip"] }

/-- Concrete tool definition for the C8 witness. -/
def ipToolDefC8 : ToolDef := { name := "ip_lookup", inputSchema := some ipSchemaC8 }

/-- Concrete tool cache for the C8 witness. -/
def validationCacheC8 : List (String × List ToolDef) := [("svc", [ipToolDefC8])]

/-- Concrete conforming arguments for the C8 witness. -/
def argsC8 : List (String × JSValue) :=
  [("ip", JSValue.vStr "1.2.3.4"), ("level", JSValue.vStr "high"),
   ("extra", JSValue.vNum 7)]

/-! # Theorems

## Stream accumulator lemmas -/

theorem streamToolMap_eq_buildMap (frames : List StreamFrame) :
    streamToolMap frames = buildMap (flatFrags frames) := by
  suffices h : ∀ (fs : List StreamFrame) (m : ToolCallsMap),
      fs.foldl
          (fun m f =>
            match f.tool_calls with
            | some l => l.foldl mapStep m
            | none => m) m =
        (flatFrags fs).foldl mapStep m by
    simpa [streamToolMap, buildMap] using h frames []
  intro fs
  induction fs with
  | nil => intro m; simp [flatFrags]
  | cons f r ih =>
    intro m
    cases htc : f.tool_calls with
    | none => simp [flatFrags, htc, ih]
    | some l => simp [flatFrags, htc, ih, List.foldl_append]

/-- The sortedness invariant of `toolCallsMap`: keys strictly ascending. -/
def SortedKeys (m : ToolCallsMap) : Prop :=
  (m.map Prod.fst).Pairwise (· < ·)

theorem lookup_eq_none_of_not_mem_keys (m : ToolCallsMap) (i : Nat)
    (h : i ∉ m.map Prod.fst) : List.lookup i m = none := by
  induction m with
  | nil => simp [List.lookup]
  | cons p rest ih =>
    obtain ⟨k, e⟩ := p
    simp only [List.map_cons, List.mem_cons, not_or] at h
    have hbe : (i == k) = false := beq_eq_false_iff_ne.mpr h.1
    simp [List.lookup, hbe, ih h.2]

theorem mem_keys_mapStep (m : ToolCallsMap) (tc : DeltaToolCall) (i : Nat) :
    i ∈ (mapStep m tc).map Prod.fst ↔ i = tc.index ∨ i ∈ m.map Prod.fst := by
  induction m with
  | nil => simp [mapStep]
  | cons p rest ih =>
    obtain ⟨k, e⟩ := p
    by_cases h : tc.index = k
    · subst h
      simp [mapStep]
    · by_cases h2 : tc.index < k
      · simp [mapStep, h, h2]
      · simp [mapStep, h, h2, ih]
        tauto

theorem sortedKeys_mapStep (m : ToolCallsMap) (tc : DeltaToolCall)
    (hs : SortedKeys m) : SortedKeys (mapStep m tc) := by
  induction m with
  | nil => simp [mapStep, SortedKeys]
  | cons p rest ih =>
    obtain ⟨k, e⟩ := p
    simp only [SortedKeys, List.map_cons, List.pairwise_cons] at hs
    by_cases h : tc.index = k
    · subst h
      simpa [mapStep, SortedKeys] using hs
    · by_cases h2 : tc.index < k
      · simp only [mapStep, if_neg h, if_pos h2, SortedKeys, List.map_cons,
          List.pairwise_cons, List.mem_cons]
        refine ⟨?_, hs.1, hs.2⟩
        intro b hb
        rcases hb with hb | hb
        · omega
        · exact lt_trans h2 (hs.1 b hb)
      · have hk : k < tc.index := by omega
        simp only [mapStep, if_neg h, if_neg h2, SortedKeys, List.map_cons,
          List.pairwise_cons]
        constructor
        · intro b hb
          rcases (mem_keys_mapStep rest tc b).mp hb with hb | hb
          · omega
          · exact hs.1 b hb
        · exact ih hs.2

theorem sortedKeys_buildMap (l : List DeltaToolCall) :
    SortedKeys (buildMap l) := by
  suffices h : ∀ (l : List DeltaToolCall) (m : ToolCallsMap), SortedKeys m →
      SortedKeys (l.foldl mapStep m) by
    exact h l [] (by simp [SortedKeys])
  intro l
  induction l with
  | nil => intro m hm; simpa using hm
  | cons a r ih =>
    intro m hm
    exact ih (mapStep m a) (sortedKeys_mapStep m a hm)

theorem lookup_mapStep_self (m : ToolCallsMap) (tc : DeltaToolCall)
    (hs : SortedKeys m) :
    List.lookup tc.index (mapStep m tc) =
      some (applyAll ((List.lookup tc.index m).getD (initEntry tc)) tc) := by
  induction m with
  | nil => simp [mapStep, List.lookup]
  | cons p rest ih =>
    obtain ⟨k, e⟩ := p
    simp only [SortedKeys, List.map_cons, List.pairwise_cons] at hs
    by_cases h : tc.index = k
    · subst h
      simp [mapStep, List.lookup]
    · have hbe : (tc.index == k) = false := beq_eq_false_iff_ne.mpr h
      by_cases h2 : tc.index < k
      · have hnm : tc.index ∉ rest.map Prod.fst := by
          intro hmem
          have := hs.1 tc.index hmem
          omega
        simp [mapStep, h, h2, List.lookup, hbe,
          lookup_eq_none_of_not_mem_keys rest tc.index hnm]
      · simp [mapStep, h, h2, List.lookup, hbe, ih hs.2]

theorem lookup_mapStep_ne (m : ToolCallsMap) (tc : DeltaToolCall) (i : Nat)
    (h : i ≠ tc.index) :
    List.lookup i (mapStep m tc) = List.lookup i m := by
  have hbi : (i == tc.index) = false := beq_eq_false_iff_ne.mpr h
  induction m with
  | nil => simp [mapStep, List.lookup, hbi]
  | cons p rest ih =>
    obtain ⟨k, e⟩ := p
    by_cases hk : tc.index = k
    · subst hk
      simp [mapStep, List.lookup, hbi]
    · by_cases h2 : tc.index < k
      · simp [mapStep, hk, h2, List.lookup, hbi]
      · simp [mapStep, hk, h2, List.lookup, ih]

theorem slotFrags_append (l : List DeltaToolCall) (tc : DeltaToolCall) (i : Nat) :
    slotFrags (l ++ [tc]) i =
      slotFrags l i ++ (if tc.index = i then [tc] else []) := by
  by_cases h : tc.index = i <;> simp [slotFrags, List.filter_append, h]

theorem slotAcc_append (s : List DeltaToolCall) (tc : DeltaToolCall) :
    slotAcc (s ++ [tc]) = some (applyAll ((slotAcc s).getD (initEntry tc)) tc) := by
  cases s with
  | nil => simp [slotAcc]
  | cons a r => simp [slotAcc, List.foldl_append]

theorem buildMap_lookup (l : List DeltaToolCall) (i : Nat) :
    List.lookup i (buildMap l) = slotAcc (slotFrags l i) := by
  induction l using List.reverseRecOn with
  | nil => simp [buildMap, slotFrags, slotAcc, List.lookup]
  | append_singleton s tc ih =>
    have hb : buildMap (s ++ [tc]) = mapStep (buildMap s) tc := by
      simp [buildMap, List.foldl_append]
    by_cases h : i = tc.index
    · subst h
      rw [hb, lookup_mapStep_self _ _ (sortedKeys_buildMap s), ih, slotFrags_append]
      simp [slotAcc_append]
    · rw [hb, lookup_mapStep_ne _ _ _ h, ih, slotFrags_append]
      have : ¬ tc.index = i := fun he => h he.symm
      simp [this]

theorem applyName_arguments (e : AccToolCall) (tc : DeltaToolCall) :
    (applyName e tc).arguments = e.arguments := by
  unfold applyName
  cases tc.function with
  | none => rfl
  | some f =>
    by_cases h : truthyS f.name <;> simp [h]

theorem applyName_name (e : AccToolCall) (tc : DeltaToolCall) :
    (applyName e tc).name =
      match nameFragVal tc with
      | some n => n
      | none => e.name := by
  unfold applyName nameFragVal
  cases tc.function with
  | none => rfl
  | some f =>
    by_cases h : truthyS f.name <;> simp [h]

theorem applyArguments_arguments (e : AccToolCall) (tc : DeltaToolCall) :
    (applyArguments e tc).arguments = e.arguments ++ argFragVal tc := by
  unfold applyArguments argFragVal
  cases tc.function with
  | none => simp [String.append_empty]
  | some f =>
    cases ha : f.arguments with
    | none => simp [truthyS, ha, String.append_empty]
    | some a =>
      by_cases h : a = ""
      · simp [truthyS, ha, h, String.append_empty]
      · simp [truthyS, ha, h]

theorem applyArguments_name (e : AccToolCall) (tc : DeltaToolCall) :
    (applyArguments e tc).name = e.name := by
  unfold applyArguments
  cases tc.function with
  | none => rfl
  | some f =>
    by_cases h : truthyS f.arguments <;> simp [h]

theorem applyId_arguments (e : AccToolCall) (tc : DeltaToolCall) :
    (applyId e tc).arguments = e.arguments := by
  unfold applyId
  cases tc.id with
  | none => rfl
  | some i =>
    by_cases h : i = "" <;> simp [h]

theorem applyId_name (e : AccToolCall) (tc : DeltaToolCall) :
    (applyId e tc).name = e.name := by
  unfold applyId
  cases tc.id with
  | none => rfl
  | some i =>
    by_cases h : i = "" <;> simp [h]

theorem applyAll_arguments (e : AccToolCall) (tc : DeltaToolCall) :
    (applyAll e tc).arguments = e.arguments ++ argFragVal tc := by
  unfold applyAll
  rw [applyId_arguments, applyArguments_arguments, applyName_arguments]

theorem applyAll_name (e : AccToolCall) (tc : DeltaToolCall) :
    (applyAll e tc).name =
      match nameFragVal tc with
      | some n => n
      | none => e.name := by
  unfold applyAll
  rw [applyId_name, applyArguments_name, applyName_name]

theorem specConcatArgs_append (s : List DeltaToolCall) (tc : DeltaToolCall) :
    specConcatArgs (s ++ [tc]) = specConcatArgs s ++ argFragVal tc := by
  simp [specConcatArgs, List.foldl_append]

theorem specLastName_append (s : List DeltaToolCall) (tc : DeltaToolCall) :
    specLastName (s ++ [tc]) =
      match nameFragVal tc with
      | some n => n
      | none => specLastName s := by
  simp only [specLastName, List.foldl_append, List.foldl_cons, List.foldl_nil]

theorem slotAcc_arguments (s : List DeltaToolCall) (e : AccToolCall)
    (h : slotAcc s = some e) : e.arguments = specConcatArgs s := by
  induction s using List.reverseRecOn generalizing e with
  | nil => simp [slotAcc] at h
  | append_singleton s tc ih =>
    rw [slotAcc_append] at h
    cases hs : slotAcc s with
    | none =>
      cases s with
      | nil =>
        simp only [hs, Option.getD_none] at h
        have he : e = applyAll (initEntry tc) tc := by
          injection h with h
          exact h.symm
        subst he
        simp [applyAll_arguments, initEntry, specConcatArgs]
      | cons a r => simp [slotAcc] at hs
    | some e0 =>
      simp only [hs, Option.getD_some] at h
      have he : e = applyAll e0 tc := by
        injection h with h
        exact h.symm
      subst he
      rw [applyAll_arguments, ih e0 hs, specConcatArgs_append]

theorem slotAcc_name (s : List DeltaToolCall) (e : AccToolCall)
    (h : slotAcc s = some e) : e.name = specLastName s := by
  induction s using List.reverseRecOn generalizing e with
  | nil => simp [slotAcc] at h
  | append_singleton s tc ih =>
    rw [slotAcc_append] at h
    cases hs : slotAcc s with
    | none =>
      cases s with
      | nil =>
        simp only [hs, Option.getD_none] at h
        have he : e = applyAll (initEntry tc) tc := by
          injection h with h
          exact h.symm
        subst he
        rw [applyAll_name, specLastName_append]
        cases hn : nameFragVal tc <;> simp [initEntry, specLastName]
      | cons a r => simp [slotAcc] at hs
    | some e0 =>
      simp only [hs, Option.getD_some] at h
      have he : e = applyAll e0 tc := by
        injection h with h
        exact h.symm
      subst he
      rw [applyAll_name, specLastName_append, ih e0 hs]

theorem slotAcc_isSome_iff (s : List DeltaToolCall) :
    (slotAcc s).isSome ↔ s ≠ [] := by
  cases s <;> simp [slotAcc]

theorem mem_keys_iff_lookup_isSome (m : ToolCallsMap) (i : Nat) :
    i ∈ m.map Prod.fst ↔ (List.lookup i m).isSome := by
  induction m with
  | nil => simp [List.lookup]
  | cons p rest ih =>
    obtain ⟨k, e⟩ := p
    by_cases h : i = k
    · subst h
      simp [List.lookup]
    · have hbe : (i == k) = false := beq_eq_false_iff_ne.mpr h
      simp [List.lookup, hbe, h, ih]

theorem mem_keys_buildMap (l : List DeltaToolCall) (i : Nat) :
    i ∈ (buildMap l).map Prod.fst ↔ i ∈ l.map DeltaToolCall.index := by
  rw [mem_keys_iff_lookup_isSome, buildMap_lookup, slotAcc_isSome_iff]
  constructor
  · intro h
    rcases List.exists_cons_of_ne_nil h with ⟨tc, r, hr⟩
    have htc : tc ∈ slotFrags l i := by rw [hr]; exact List.mem_cons_self tc r
    have hidx := List.of_mem_filter htc
    have hmem := List.mem_of_mem_filter htc
    simp only [decide_eq_true_eq] at hidx
    exact List.mem_map.mpr ⟨tc, hmem, hidx⟩
  · intro h
    rcases List.mem_map.mp h with ⟨tc, hmem, hidx⟩
    intro hnil
    have : tc ∈ slotFrags l i := by
      apply List.mem_filter.mpr
      exact ⟨hmem, by simp [hidx]⟩
    rw [hnil] at this
    exact absurd this (List.not_mem_nil tc)

theorem lookup_of_mem_sorted (m : ToolCallsMap) (p : Nat × AccToolCall)
    (hs : SortedKeys m) (h : p ∈ m) : List.lookup p.1 m = some p.2 := by
  induction m with
  | nil => exact absurd h (List.not_mem_nil p)
  | cons q rest ih =>
    obtain ⟨k, e⟩ := q
    simp only [SortedKeys, List.map_cons, List.pairwise_cons] at hs
    rcases List.mem_cons.mp h with h | h
    · subst h
      simp [List.lookup]
    · have hk : p.1 ≠ k := by
        have : k < p.1 := hs.1 p.1 (List.mem_map.mpr ⟨p, h, rfl⟩)
        omega
      have hbe : (p.1 == k) = false := beq_eq_false_iff_ne.mpr hk
      simp [List.lookup, hbe, ih hs.2 h]

theorem keys_buildMap_length (l : List DeltaToolCall) :
    ((buildMap l).map Prod.fst).length =
      ((l.map DeltaToolCall.index).dedup).length := by
  have hnodup : ((buildMap l).map Prod.fst).Nodup :=
    (sortedKeys_buildMap l).imp (fun hlt => Nat.ne_of_lt hlt)
  have hperm : List.Perm ((buildMap l).map Prod.fst)
      ((l.map DeltaToolCall.index).dedup) := by
    refine (List.perm_ext_iff_of_nodup hnodup (List.nodup_dedup _)).mpr ?_
    intro a
    rw [List.mem_dedup, mem_keys_buildMap]
  exact hperm.length_eq

/-- Claim C5: for every stream of frames containing N distinct tool-call
slot indices, arbitrarily interleaved with text fragments, the
accumulator produces exactly N tool-call entries at stream end (here: the
produced list is the entry list of the accumulated map, whose size equals
the number of distinct slot indices); each entry's arguments string
equals the concatenation, in delivery order, of that slot's argument
fragments, and the entries are ordered by ascending slot index. -/
theorem C5_stream_accumulation (frames : List StreamFrame) :
    (streamToolCalls frames).getD [] = (streamToolMap frames).map Prod.snd ∧
    (streamToolMap frames).length =
      (((flatFrags frames).map DeltaToolCall.index).dedup).length ∧
    ((streamToolMap frames).map Prod.fst).Pairwise (· < ·) ∧
    (∀ p ∈ streamToolMap frames,
        p.2.arguments = specConcatArgs (slotFrags (flatFrags frames) p.1)) := by
  have hm := streamToolMap_eq_buildMap frames
  refine ⟨?_, ?_, ?_, ?_⟩
  · unfold streamToolCalls
    by_cases h : (streamToolMap frames).isEmpty <;> simp_all [List.isEmpty_iff]
  · rw [hm]
    have := keys_buildMap_length (flatFrags frames)
    simpa using this
  · rw [hm]
    exact sortedKeys_buildMap (flatFrags frames)
  · intro p hp
    rw [hm] at hp
    have hl : List.lookup p.1 (buildMap (flatFrags frames)) = some p.2 :=
      lookup_of_mem_sorted _ p (sortedKeys_buildMap _) hp
    rw [buildMap_lookup] at hl
    exact slotAcc_arguments _ _ hl

/-- Claim C6 (amended): a slot's resulting function name is the LAST
non-empty name fragment delivered for that slot — each non-empty fragment
overwrites the stored name — while the arguments string is appended
across frames. -/
theorem C6_last_name_wins (frames : List StreamFrame) (i : Nat)
    (e : AccToolCall) (h : List.lookup i (streamToolMap frames) = some e) :
    e.name = specLastName (slotFrags (flatFrags frames) i) ∧
    e.arguments = specConcatArgs (slotFrags (flatFrags frames) i) := by
  rw [streamToolMap_eq_buildMap, buildMap_lookup] at h
  exact ⟨slotAcc_name _ _ h, slotAcc_arguments _ _ h⟩

/-- Witness for C6 (amended) at the concrete stream `framesC6`. -/
theorem C6_last_name_wins_witness :
    ({ id := "call_1", ctype := "function", name := "beta", arguments := "" } :
        AccToolCall).name =
      specLastName (slotFrags (flatFrags framesC6) 0) ∧
    ({ id := "call_1", ctype := "function", name := "beta", arguments := "" } :
        AccToolCall).arguments =
      specConcatArgs (slotFrags (flatFrags framesC6) 0) :=
  C6_last_name_wins framesC6 0 _ (by decide)

/-- Counterexample to claim C6 as stated: in `framesC6` slot 0 receives
the non-empty name fragments "alpha" then "beta"; the first non-empty
name is "alpha", but the accumulator reports "beta" — the name is NOT set
once with the first non-empty value winning. -/
theorem C6_counterexample :
    ((streamToolCalls framesC6).getD []).map AccToolCall.name = ["beta"] ∧
    specFirstName (slotFrags (flatFrags framesC6) 0) = "alpha" ∧
    ("beta" : String) ≠ "alpha" := by
  refine ⟨by decide, by decide, by decide⟩

/-! ## C7: empty content with tool calls is not a failure -/

theorem streamContent_of_no_text (frames : List StreamFrame)
    (hText : ∀ f ∈ frames, truthyS f.content = false) :
    streamContent frames = "" := by
  unfold streamContent
  suffices h : ∀ (fs : List StreamFrame) (s : String),
      (∀ f ∈ fs, truthyS f.content = false) →
      fs.foldl (fun s f => if truthyS f.content then s ++ f.content.getD "" else s) s = s by
    exact h frames "" hText
  intro fs
  induction fs with
  | nil => intro s _; rfl
  | cons f r ih =>
    intro s hall
    have hf : truthyS f.content = false := hall f (List.mem_cons_self f r)
    simp only [List.foldl_cons, hf, if_neg (by simp [hf] : ¬ truthyS f.content = true)]
    exact ih s (fun g hg => hall g (List.mem_cons_of_mem f hg))

/-- Claim C7: for every stream that delivers zero text fragments and at
least one complete tool-call slot, the accumulated result is content `""`
together with the non-empty tool-call list, and this outcome is treated
as valid by the downstream end-of-stream handler: it takes the tool-call
notice branch, not the empty-response failure branch, and returns
`{content: "", tool_calls}` with a non-empty list. -/
theorem C7_empty_content_with_tools (inner : String → String)
    (frames : List StreamFrame)
    (hText : ∀ f ∈ frames, truthyS f.content = false)
    (hSlot : streamToolMap frames ≠ []) :
    (sidebarStreamReturn frames).content = "" ∧
    (∃ l, (sidebarStreamReturn frames).tool_calls = some l ∧ l ≠ []) ∧
    sidebarFinalDisplay inner frames = .toolCallNotice := by
  have hc : streamContent frames = "" := streamContent_of_no_text frames hText
  have hne : (streamToolMap frames).isEmpty = false := by
    simpa [List.isEmpty_iff] using hSlot
  have htc : streamToolCalls frames = some ((streamToolMap frames).map Prod.snd) := by
    simp [streamToolCalls, hne]
  refine ⟨?_, ?_, ?_⟩
  · simp [sidebarStreamReturn, hc]
  · refine ⟨(streamToolMap frames).map Prod.snd, ?_, ?_⟩
    · simp [sidebarStreamReturn, htc]
    · simp only [ne_eq, List.map_eq_nil_iff]
      exact hSlot
  · unfold sidebarFinalDisplay
    have hmd : markdownToHtml inner (streamContent frames) = "" := by
      simp [hc, markdownToHtml]
    simp only [hc, hmd, htc]
    have hmd2 : markdownToHtml inner "" = "" := by simp [markdownToHtml]
    simp [hmd2, List.length_pos.mpr hSlot]

/-- Witness for C7 at the concrete stream `framesC7`, with the markdown
converter instantiated by the identity. -/
theorem C7_empty_content_with_tools_witness :
    (sidebarStreamReturn framesC7).content = "" ∧
    (∃ l, (sidebarStreamReturn framesC7).tool_calls = some l ∧ l ≠ []) ∧
    sidebarFinalDisplay (fun s => s) framesC7 = .toolCallNotice :=
  C7_empty_content_with_tools (fun s => s) framesC7 (by decide) (by decide)

/-! ## C9: silent truncation to the first five calls -/

/-- Claim C9: for every model turn whose parsed tool-call list contains
more than `maxToolCallsPerTurn` (5) entries, a dispatch entered below the
recursion limit processes exactly the first 5 calls in list order and
drops the remainder, and no error is surfaced (`showError` does not run
and the recursion-limit branch is not taken); the batch and routing are
built from those 5 calls only, so the dropped calls can never produce
results. -/
theorem C9_truncates_to_first_five (synth2 : Nat → String)
    (mcpServices : List Service) (mcpToolsCache : List (String × List ToolDef))
    (toolsAutoExecute : List (String × Bool)) (recursionDepth : Nat)
    (parsedCalls : List ParsedCall)
    (hdepth : recursionDepth < MAX_RECURSION_DEPTH)
    (hlen : DefaultConfig.uiMaxToolCallsPerTurn < parsedCalls.length) :
    (handleFunctionCallsDispatch synth2 mcpServices mcpToolsCache
        toolsAutoExecute recursionDepth parsedCalls).recursionLimitHit = false ∧
    (handleFunctionCallsDispatch synth2 mcpServices mcpToolsCache
        toolsAutoExecute recursionDepth parsedCalls).errorShown = false ∧
    (handleFunctionCallsDispatch synth2 mcpServices mcpToolsCache
        toolsAutoExecute recursionDepth parsedCalls).dispatchedCalls =
      parsedCalls.take DefaultConfig.uiMaxToolCallsPerTurn ∧
    (handleFunctionCallsDispatch synth2 mcpServices mcpToolsCache
        toolsAutoExecute recursionDepth parsedCalls).dispatchedCalls.length =
      DefaultConfig.uiMaxToolCallsPerTurn := by
  have hge : ¬ recursionDepth ≥ MAX_RECURSION_DEPTH := by omega
  have hne : parsedCalls.isEmpty = false := by
    have : parsedCalls ≠ [] := by
      intro h
      rw [h] at hlen
      simp at hlen
    simpa [List.isEmpty_iff] using this
  have hd : (handleFunctionCallsDispatch synth2 mcpServices mcpToolsCache
      toolsAutoExecute recursionDepth parsedCalls).dispatchedCalls =
      parsedCalls.take DefaultConfig.uiMaxToolCallsPerTurn := by
    unfold handleFunctionCallsDispatch
    simp [hge, hne]
  refine ⟨?_, ?_, hd, ?_⟩
  · unfold handleFunctionCallsDispatch
    simp [hge, hne]
  · unfold handleFunctionCallsDispatch
    simp [hge, hne]
  · rw [hd]
    simp only [List.length_take]
    omega

/-- Witness for C9: six parsed calls, dispatched at depth 0. -/
theorem C9_truncates_to_first_five_witness :
    (handleFunctionCallsDispatch synthGen2 servicesC4 toolsCacheC4 autoMapC4 0
        (List.range 6 |>.map
          (fun k => { id := toString k, ctype := "function", name := "lookup"
                      arguments := JSValue.vNull }))).dispatchedCalls.length =
      DefaultConfig.uiMaxToolCallsPerTurn :=
  (C9_truncates_to_first_five synthGen2 servicesC4 toolsCacheC4 autoMapC4 0 _
      (by decide) (by decide)).2.2.2

/-! ## C1: the recursion-depth guard is never reached on resubmission -/

/-- Claim C1 evaluation (the code contradicts the claim): the depth every
resubmission round re-enters `handleFunctionCalls` with is
`batchRecursionDepthOf pending none + 1 = 1`, because the normal
completion path never passes a `batchId` to `sendToolResultsToAI`; hence
the round depth never exceeds 1 and the `RecursionLimitExceeded` guard
(threshold 5) never fires at any round — a model that always requests
another tool call is never stopped by the recursion limit. -/
theorem C1_recursion_guard_never_fires (pending : List (String × BatchRec))
    (synth2 : Nat → String) (mcpServices : List Service)
    (mcpToolsCache : List (String × List ToolDef))
    (toolsAutoExecute : List (String × Bool)) (parsedCalls : List ParsedCall)
    (n : Nat) :
    roundDepth pending n ≤ 1 ∧
    (handleFunctionCallsDispatch synth2 mcpServices mcpToolsCache
        toolsAutoExecute (roundDepth pending n) parsedCalls).recursionLimitHit =
      false := by
  have hd : roundDepth pending n ≤ 1 := by
    cases n with
    | zero => simp [roundDepth]
    | succ k =>
      simp [roundDepth, resubmitDepth, batchRecursionDepthOf,
        normalResubmitBatchIdArg]
  refine ⟨hd, ?_⟩
  have hmax : MAX_RECURSION_DEPTH = 5 := rfl
  have hge : ¬ roundDepth pending n ≥ MAX_RECURSION_DEPTH := by omega
  unfold handleFunctionCallsDispatch
  simp only [hge, if_false]
  by_cases he : parsedCalls.isEmpty <;> simp [he]

/-! ## C2 and C3: batch completion and cancellation -/

theorem sumSizes_nil : sumSizes [] = 0 := rfl

theorem sumSizes_cons (e : BatchEvent) (evs : List BatchEvent) :
    sumSizes (e :: evs) = evSize e + sumSizes evs := by
  simp [sumSizes]

theorem sumSizes_append (p q : List BatchEvent) :
    sumSizes (p ++ q) = sumSizes p + sumSizes q := by
  simp [sumSizes]

theorem runBatch_nil (st : OrchState) : runBatch st [] = st := rfl

theorem runBatch_cons (st : OrchState) (e : BatchEvent) (evs : List BatchEvent) :
    runBatch st (e :: evs) = runBatch (batchStep st e) evs := rfl

theorem runBatch_append (st : OrchState) (p q : List BatchEvent) :
    runBatch st (p ++ q) = runBatch (runBatch st p) q := by
  simp [runBatch, List.foldl_append]

/-- While the batch is alive, uncancelled, and the recorded results stay
strictly below `totalCount`, no downstream action fires and the state
grows by exactly the recorded results. -/
theorem runBatch_below_total (evs : List BatchEvent) (st : OrchState) (b0 : BatchRec)
    (hb : st.batch = some b0) (hc : b0.cancelled = false)
    (hlt : b0.results.length + sumSizes evs < b0.totalCount)
    (hpos : ∀ e ∈ evs, 1 ≤ evSize e) :
    (runBatch st evs).normalFires = st.normalFires ∧
    (runBatch st evs).cancelFires = st.cancelFires ∧
    (runBatch st evs).errorNotices = st.errorNotices ∧
    (runBatch st evs).cache.length = st.cache.length + sumSizes evs ∧
    (runBatch st evs).toolLog.length = st.toolLog.length + sumSizes evs ∧
    ∃ b1, (runBatch st evs).batch = some b1 ∧ b1.cancelled = false ∧
      b1.results.length = b0.results.length + sumSizes evs ∧
      b1.totalCount = b0.totalCount := by
  induction evs generalizing st b0 with
  | nil =>
    refine ⟨rfl, rfl, rfl, rfl, rfl, b0, hb, hc, rfl, rfl⟩
  | cons e evs ih =>
    have hsz : 1 ≤ evSize e := hpos e (List.mem_cons_self e evs)
    cases e with
    | cancel => simp [evSize] at hsz
    | complete rs =>
      rw [runBatch_cons]
      rw [sumSizes_cons] at hlt
      simp only [evSize] at hsz hlt
      have hfull : ¬ (b0.results.length + rs.length = b0.totalCount) := by omega
      have hstep : batchStep st (.complete rs) =
          { st with
            toolLog := st.toolLog ++ rs
            cache := st.cache ++ rs
            batch := some { b0 with results := b0.results ++ rs.map ToolResultRec.toolName } } := by
        simp only [batchStep, completeStep, hb, hc, Bool.false_eq_true, if_false,
          List.length_append, List.length_map]
        simp [hfull]
      rw [hstep]
      have := ih
        { st with
          toolLog := st.toolLog ++ rs
          cache := st.cache ++ rs
          batch := some { b0 with results := b0.results ++ rs.map ToolResultRec.toolName } }
        { b0 with results := b0.results ++ rs.map ToolResultRec.toolName }
        rfl hc
        (by simp only [List.length_append, List.length_map]; omega)
        (fun e he => hpos e (List.mem_cons_of_mem _ he))
      obtain ⟨h1, h2, h3, h4, h5, b1, hb1, hbc, hbl, hbt⟩ := this
      refine ⟨by simpa using h1, by simpa using h2, by simpa using h3, ?_, ?_,
        b1, hb1, hbc, ?_, by simpa using hbt⟩
      · rw [h4]
        simp only [List.length_append, sumSizes_cons, evSize]
        omega
      · rw [h5]
        simp only [List.length_append, sumSizes_cons, evSize]
        omega
      · rw [hbl]
        simp only [List.length_append, List.length_map, sumSizes_cons, evSize]
        omega

/-- When the recorded results of an uncancelled live batch reach exactly
`totalCount` over a non-empty run of completions, the normal resubmission
fires exactly once (at the last event) and the cancellation path never
fires. -/
theorem runBatch_completes (evs : List BatchEvent) (st : OrchState) (b0 : BatchRec)
    (hb : st.batch = some b0) (hc : b0.cancelled = false)
    (hsum : b0.results.length + sumSizes evs = b0.totalCount)
    (hpos : ∀ e ∈ evs, 1 ≤ evSize e) (hne : evs ≠ []) :
    (runBatch st evs).normalFires = st.normalFires + 1 ∧
    (runBatch st evs).cancelFires = st.cancelFires := by
  induction evs generalizing st b0 with
  | nil => exact absurd rfl hne
  | cons e evs ih =>
    have hsz : 1 ≤ evSize e := hpos e (List.mem_cons_self e evs)
    cases e with
    | cancel => simp [evSize] at hsz
    | complete rs =>
      rw [runBatch_cons]
      rw [sumSizes_cons] at hsum
      simp only [evSize] at hsz hsum
      by_cases hrest : evs = []
      · subst hrest
        have hfull : b0.results.length + rs.length = b0.totalCount := by
          rw [sumSizes_nil] at hsum
          omega
        have hstep : batchStep st (.complete rs) =
            { st with
              toolLog := st.toolLog ++ rs
              cache := st.cache ++ rs
              batch := none
              normalFires := st.normalFires + 1 } := by
          simp only [batchStep, completeStep, hb, hc, Bool.false_eq_true, if_false,
            List.length_append, List.length_map]
          simp [hfull]
        rw [hstep, runBatch_nil]
        exact ⟨rfl, rfl⟩
      · have hq : 1 ≤ sumSizes evs := by
          rcases List.exists_cons_of_ne_nil hrest with ⟨x, t, hx⟩
          have hx1 : 1 ≤ evSize x := hpos x (by rw [hx]; simp)
          rw [hx, sumSizes_cons]
          omega
        have hfull : ¬ (b0.results.length + rs.length = b0.totalCount) := by omega
        have hstep : batchStep st (.complete rs) =
            { st with
              toolLog := st.toolLog ++ rs
              cache := st.cache ++ rs
              batch := some { b0 with results := b0.results ++ rs.map ToolResultRec.toolName } } := by
          simp only [batchStep, completeStep, hb, hc, Bool.false_eq_true, if_false,
            List.length_append, List.length_map]
          simp [hfull]
        rw [hstep]
        have := ih
          { st with
            toolLog := st.toolLog ++ rs
            cache := st.cache ++ rs
            batch := some { b0 with results := b0.results ++ rs.map ToolResultRec.toolName } }
          { b0 with results := b0.results ++ rs.map ToolResultRec.toolName }
          rfl hc
          (by simp only [List.length_append, List.length_map]; omega)
          (fun e he => hpos e (List.mem_cons_of_mem _ he)) hrest
        simpa using this

/-- Once the batch is cancelled, later completions still record their
results but neither resubmission path fires again, and the batch stays
cancelled. -/
theorem runBatch_cancelled (evs : List BatchEvent) (st : OrchState) (b : BatchRec)
    (hb : st.batch = some b) (hc : b.cancelled = true) :
    (runBatch st evs).normalFires = st.normalFires ∧
    (runBatch st evs).cancelFires = st.cancelFires ∧
    (runBatch st evs).errorNotices = st.errorNotices ∧
    (runBatch st evs).toolLog.length = st.toolLog.length + sumSizes evs := by
  induction evs generalizing st b with
  | nil =>
    refine ⟨rfl, rfl, rfl, rfl⟩
  | cons e evs ih =>
    rw [runBatch_cons, sumSizes_cons]
    cases e with
    | cancel =>
      have hstep : batchStep st .cancel = st := by
        simp [batchStep, cancelStep, hb, hc]
      rw [hstep]
      have := ih st b hb hc
      simpa [evSize] using this
    | complete rs =>
      have hstep : batchStep st (.complete rs) =
          { st with
            toolLog := st.toolLog ++ rs
            cache := st.cache ++ rs
            batch := some { b with results := b.results ++ rs.map ToolResultRec.toolName } } := by
        simp [batchStep, completeStep, hb, hc]
      rw [hstep]
      have := ih
        { st with
          toolLog := st.toolLog ++ rs
          cache := st.cache ++ rs
          batch := some { b with results := b.results ++ rs.map ToolResultRec.toolName } }
        { b with results := b.results ++ rs.map ToolResultRec.toolName }
        rfl hc
      obtain ⟨h1, h2, h3, h4⟩ := this
      refine ⟨by simpa using h1, by simpa using h2, by simpa using h3, ?_⟩
      rw [h4]
      simp only [List.length_append, evSize]
      omega

/-- Claim C2: for every batch of `totalCount` tool calls that is not
cancelled, with the individual completion handlers (each recording at
least one result, together recording exactly `totalCount`) arriving in
any interleaving, the resubmission of the batch results to the model
fires exactly once — at the event that makes the recorded count reach
`totalCount` (no proper prefix of the events fires it) — never zero times
and never more than once. -/
theorem C2_resubmission_fires_exactly_once (totalCount depth : Nat)
    (cache0 log0 : List ToolResultRec) (evs : List BatchEvent)
    (hpos : ∀ e ∈ evs, 1 ≤ evSize e) (hsum : sumSizes evs = totalCount)
    (hne : evs ≠ []) :
    (runBatch (initOrchState totalCount depth cache0 log0) evs).normalFires = 1 ∧
    (runBatch (initOrchState totalCount depth cache0 log0) evs).cancelFires = 0 ∧
    (∀ p q, evs = p ++ q → q ≠ [] →
      (runBatch (initOrchState totalCount depth cache0 log0) p).normalFires = 0) := by
  have hmain := runBatch_completes evs (initOrchState totalCount depth cache0 log0)
    _ rfl rfl (by simpa [initOrchState] using hsum) hpos hne
  refine ⟨by simpa [initOrchState] using hmain.1, by simpa [initOrchState] using hmain.2, ?_⟩
  intro p q hpq hq
  have hqpos : 1 ≤ sumSizes q := by
    rcases List.exists_cons_of_ne_nil hq with ⟨x, t, hx⟩
    have hx1 : 1 ≤ evSize x := hpos x (by rw [hpq, hx]; simp)
    rw [hx, sumSizes_cons]
    omega
  have hsump : sumSizes p + sumSizes q = totalCount := by
    rw [← sumSizes_append, ← hpq, hsum]
  have hppos : ∀ e ∈ p, 1 ≤ evSize e := by
    intro e he
    exact hpos e (by rw [hpq]; exact List.mem_append_left q he)
  have := runBatch_below_total p (initOrchState totalCount depth cache0 log0) _ rfl rfl
    (by simp [initOrchState]; omega) hppos
  simpa [initOrchState] using this.1

/-- Witness for C2: a batch of three tools completing as one auto group
of two results followed by one manual completion. -/
theorem C2_resubmission_fires_exactly_once_witness :
    (runBatch (initOrchState 3 0 [] [])
        [BatchEvent.complete [⟨"a"⟩, ⟨"b"⟩], BatchEvent.complete [⟨"c"⟩]]).normalFires = 1 :=
  (C2_resubmission_fires_exactly_once 3 0 [] []
      [BatchEvent.complete [⟨"a"⟩, ⟨"b"⟩], BatchEvent.complete [⟨"c"⟩]]
      (by decide) (by decide) (by decide)).1

/-- Claim C3 (amended): if the batch is cancelled before its final result
is recorded AND at least one tool result is available in the
conversation's result cache at cancellation time, then the normal
completion resubmission never fires, completions arriving after the
cancellation still record their results, and the cancellation-conclusion
path fires exactly once.  (When the cache is empty at cancellation time
the code shows an error notice instead and the conclusion path does not
fire — see the counterexample.) -/
theorem C3_cancellation_suppresses_resubmission (totalCount depth : Nat)
    (cache0 log0 : List ToolResultRec) (pre post : List BatchEvent)
    (hpre : ∀ e ∈ pre, 1 ≤ evSize e)
    (hlt : sumSizes pre < totalCount)
    (hcache : 0 < cache0.length + sumSizes pre) :
    (runBatch (initOrchState totalCount depth cache0 log0)
        (pre ++ BatchEvent.cancel :: post)).normalFires = 0 ∧
    (runBatch (initOrchState totalCount depth cache0 log0)
        (pre ++ BatchEvent.cancel :: post)).cancelFires = 1 ∧
    (runBatch (initOrchState totalCount depth cache0 log0)
        (pre ++ BatchEvent.cancel :: post)).toolLog.length =
      log0.length + sumSizes (pre ++ BatchEvent.cancel :: post) := by
  have hphase1 := runBatch_below_total pre (initOrchState totalCount depth cache0 log0)
    _ rfl rfl (by simp [initOrchState]; omega) hpre
  obtain ⟨h1, h2, h3, h4, h5, b1, hb1, hbc, hbl, hbt⟩ := hphase1
  set st1 := runBatch (initOrchState totalCount depth cache0 log0) pre with hst1
  have hcache1 : 0 < st1.cache.length := by
    rw [h4]
    simp only [initOrchState] at *
    omega
  have hcstep : batchStep st1 .cancel =
      { st1 with batch := some { b1 with cancelled := true }
                 cancelFires := st1.cancelFires + 1 } := by
    simp only [batchStep, cancelStep, hb1, hbc, Bool.false_eq_true, if_false]
    have : st1.cache.length > 0 := hcache1
    simp [this]
  have hsplit : runBatch (initOrchState totalCount depth cache0 log0)
      (pre ++ BatchEvent.cancel :: post) =
      runBatch (batchStep st1 .cancel) post := by
    rw [runBatch_append, runBatch_cons]
  rw [hsplit, hcstep]
  have hphase3 := runBatch_cancelled post
    { st1 with batch := some { b1 with cancelled := true }
               cancelFires := st1.cancelFires + 1 }
    { b1 with cancelled := true } rfl rfl
  obtain ⟨g1, g2, g3, g4⟩ := hphase3
  refine ⟨?_, ?_, ?_⟩
  · rw [g1]
    simpa [initOrchState] using h1
  · rw [g2]
    simp only []
    rw [h2]
    simp [initOrchState]
  · rw [g4]
    simp only []
    rw [h5]
    simp only [initOrchState, sumSizes_append, sumSizes_cons, evSize]
    omega

/-- Witness for C3 (amended): a batch of two tools, one completes, the
user cancels, the other completes afterwards; the conclusion path fires
once and both results are recorded. -/
theorem C3_cancellation_suppresses_resubmission_witness :
    (runBatch (initOrchState 2 0 [] [])
        ([BatchEvent.complete [⟨"a"⟩]] ++
          BatchEvent.cancel :: [BatchEvent.complete [⟨"b"⟩]])).normalFires = 0 ∧
    (runBatch (initOrchState 2 0 [] [])
        ([BatchEvent.complete [⟨"a"⟩]] ++
          BatchEvent.cancel :: [BatchEvent.complete [⟨"b"⟩]])).cancelFires = 1 ∧
    (runBatch (initOrchState 2 0 [] [])
        ([BatchEvent.complete [⟨"a"⟩]] ++
          BatchEvent.cancel :: [BatchEvent.complete [⟨"b"⟩]])).toolLog.length =
      ([] : List ToolResultRec).length +
        sumSizes ([BatchEvent.complete [⟨"a"⟩]] ++
          BatchEvent.cancel :: [BatchEvent.complete [⟨"b"⟩]]) :=
  C3_cancellation_suppresses_resubmission 2 0 [] []
    [BatchEvent.complete [⟨"a"⟩]] [BatchEvent.complete [⟨"b"⟩]]
    (by decide) (by decide) (by decide)

/-- Counterexample to claim C3 as stated: a batch of two manual tools is
cancelled before any result exists (the result cache is empty), and the
other tool completes afterwards; `cancelled` is set before the final
result is recorded and the result is still recorded, yet the
cancellation-conclusion path fires zero times (the code shows an error
notice instead, sidebar.js lines 1192-1195), not exactly once. -/
theorem C3_counterexample :
    (runBatch (initOrchState 2 0 [] [])
        [BatchEvent.cancel, BatchEvent.complete [⟨"t"⟩]]).cancelFires = 0 ∧
    (runBatch (initOrchState 2 0 [] [])
        [BatchEvent.cancel, BatchEvent.complete [⟨"t"⟩]]).normalFires = 0 ∧
    (runBatch (initOrchState 2 0 [] [])
        [BatchEvent.cancel, BatchEvent.complete [⟨"t"⟩]]).errorNotices = 1 := by
  refine ⟨by decide, by decide, by decide⟩

/-! ## C4: tool-role message correlation -/

theorem checkToolCorrelation_append (seen : List String) (a b : List ConvMsg) :
    checkToolCorrelation seen (a ++ b) =
      (checkToolCorrelation seen a &&
        checkToolCorrelation (seen ++ collectIds a) b) := by
  induction a generalizing seen with
  | nil => simp [checkToolCorrelation, collectIds]
  | cons m rest ih =>
    cases m with
    | assistantTurn c tcs =>
      simp only [List.cons_append, checkToolCorrelation, collectIds,
        List.append_eq, ih, List.append_assoc]
    | toolTurn tid nm ct =>
      simp only [List.cons_append, checkToolCorrelation, collectIds,
        List.append_eq, ih, Bool.and_assoc]
    | userTurn c =>
      simp only [List.cons_append, checkToolCorrelation, collectIds,
        List.append_eq, ih]

theorem checkToolCorrelation_of_all_tool (seen : List String)
    (msgs : List ConvMsg)
    (h : ∀ m ∈ msgs, ∃ tid nm ct, m = .toolTurn tid nm ct ∧ tid ∈ seen) :
    checkToolCorrelation seen msgs = true := by
  induction msgs with
  | nil => rfl
  | cons m rest ih =>
    obtain ⟨tid, nm, ct, hm, htid⟩ := h m (List.mem_cons_self m rest)
    subst hm
    simp only [checkToolCorrelation, Bool.and_eq_true]
    refine ⟨by simpa using htid, ih (fun m hm => h m (List.mem_cons_of_mem _ hm))⟩

theorem extractToolCalls_go_ids (env : JsEnv) (synth : Nat → String)
    (l : List AccToolCall) (k : Nat) (parsed : List ParsedCall)
    (hok : extractToolCalls.go env synth k l = .ok parsed)
    (hids : ∀ c ∈ l, c.id ≠ "") :
    ∀ pc ∈ parsed, pc.id ∈ l.map AccToolCall.id := by
  induction l generalizing k parsed with
  | nil =>
    simp only [extractToolCalls.go] at hok
    injection hok with hok
    subst hok
    intro pc hpc
    exact absurd hpc (List.not_mem_nil pc)
  | cons c rest ih =>
    simp only [extractToolCalls.go] at hok
    rcases hargs : (if jsTrim c.arguments = "" then Except.ok (JSValue.vObj [])
        else
          match env.jsonParse c.arguments with
          | some p => Except.ok p
          | none => Except.error "failed to parse arguments") with
      he | a
    · rw [hargs] at hok
      exact absurd hok (by simp)
    · rw [hargs] at hok
      rcases hrest : extractToolCalls.go env synth (k + 1) rest with he2 | tail
      · rw [hrest] at hok
        exact absurd hok (by simp [Except.map])
      · rw [hrest] at hok
        simp only [Except.map] at hok
        injection hok with hok
        subst hok
        intro pc hpc
        rcases List.mem_cons.mp hpc with hpc | hpc
        · subst hpc
          have hcid : c.id ≠ "" := hids c (List.mem_cons_self c rest)
          simp only [jsOrS, if_neg hcid, List.map_cons]
          exact List.mem_cons_self c.id _
        · have := ih (k + 1) tail hrest
            (fun x hx => hids x (List.mem_cons_of_mem _ hx)) pc hpc
          simp only [List.map_cons]
          exact List.mem_cons_of_mem _ this

theorem partitionCalls_toolCallIds (synth2 : Nat → String)
    (mcpServices : List Service) (mcpToolsCache : List (String × List ToolDef))
    (toolsAutoExecute : List (String × Bool)) (k : Nat)
    (calls : List ParsedCall) (hids : ∀ c ∈ calls, c.id ≠ "") :
    ∀ intent ∈
      ((partitionCalls synth2 mcpServices mcpToolsCache toolsAutoExecute k
            calls).1.map Prod.fst ++
        (partitionCalls synth2 mcpServices mcpToolsCache toolsAutoExecute k
            calls).2.1.map Prod.fst ++
        (partitionCalls synth2 mcpServices mcpToolsCache toolsAutoExecute k
            calls).2.2),
      intent.toolCallId ∈ calls.map ParsedCall.id := by
  induction calls generalizing k with
  | nil =>
    intro intent h
    simp [partitionCalls] at h
  | cons c rest ih =>
    intro intent h
    have hcid : c.id ≠ "" := hids c (List.mem_cons_self c rest)
    have hrest : ∀ x ∈ rest, x.id ≠ "" :=
      fun x hx => hids x (List.mem_cons_of_mem _ hx)
    have hcall : jsOrS c.id (synth2 k) = c.id := by
      simp [jsOrS, hcid]
    rcases hp : partitionCalls synth2 mcpServices mcpToolsCache toolsAutoExecute
        (k + 1) rest with ⟨autoT, manualT, missing⟩
    have ihk : ∀ i : ToolIntent,
        (i ∈ autoT.map Prod.fst ∨ i ∈ manualT.map Prod.fst ∨ i ∈ missing) →
        i.toolCallId ∈ rest.map ParsedCall.id := by
      intro i hi
      apply ih (k + 1) hrest i
      rw [hp]
      simp only [List.mem_append]
      tauto
    have hmain : intent =
        ({ toolName := c.name, args := c.arguments
           toolCallId := jsOrS c.id (synth2 k) } : ToolIntent) ∨
        (intent ∈ autoT.map Prod.fst ∨ intent ∈ manualT.map Prod.fst ∨
          intent ∈ missing) := by
      simp only [partitionCalls, hp] at h
      by_cases hname : c.name = ""
      · rw [if_pos hname] at h
        right
        simp only [List.mem_append] at h
        tauto
      · rw [if_neg hname] at h
        rcases hsvc : findServiceIdByTool mcpServices mcpToolsCache c.name with
          _ | svc
        · simp only [hsvc] at h
          simp only [List.mem_append, List.mem_cons] at h
          tauto
        · simp only [hsvc] at h
          split at h <;>
            · simp only [List.map_cons, List.mem_append, List.mem_cons] at h
              tauto
    rcases hmain with hmain | hmain
    · subst hmain
      show jsOrS c.id (synth2 k) ∈ (c :: rest).map ParsedCall.id
      rw [hcall]
      simp only [List.map_cons]
      exact List.mem_cons_self c.id _
    · have := ihk intent hmain
      simp only [List.map_cons]
      exact List.mem_cons_of_mem _ this

theorem dispatch_intent_ids (synth2 : Nat → String) (mcpServices : List Service)
    (mcpToolsCache : List (String × List ToolDef))
    (toolsAutoExecute : List (String × Bool)) (recursionDepth : Nat)
    (parsed : List ParsedCall) (hids : ∀ pc ∈ parsed, pc.id ≠ "") :
    ∀ intent ∈
      ((handleFunctionCallsDispatch synth2 mcpServices mcpToolsCache
            toolsAutoExecute recursionDepth parsed).autoTools.map Prod.fst ++
        (handleFunctionCallsDispatch synth2 mcpServices mcpToolsCache
            toolsAutoExecute recursionDepth parsed).manualTools.map Prod.fst ++
        (handleFunctionCallsDispatch synth2 mcpServices mcpToolsCache
            toolsAutoExecute recursionDepth parsed).missingRoute),
      intent.toolCallId ∈ parsed.map ParsedCall.id := by
  intro intent h
  unfold handleFunctionCallsDispatch at h
  by_cases hd : recursionDepth ≥ MAX_RECURSION_DEPTH
  · simp [hd] at h
  · rw [if_neg hd] at h
    by_cases he : parsed.isEmpty
    · simp [he] at h
    · rw [if_neg he] at h
      simp only at h
      have htake : ∀ c ∈ parsed.take DefaultConfig.uiMaxToolCallsPerTurn, c.id ≠ "" :=
        fun c hc => hids c (List.take_subset _ _ hc)
      have hmem := partitionCalls_toolCallIds synth2 mcpServices mcpToolsCache
        toolsAutoExecute 0 (parsed.take DefaultConfig.uiMaxToolCallsPerTurn)
        htake intent h
      rcases List.mem_map.mp hmem with ⟨c, hc, hcid⟩
      exact List.mem_map.mpr ⟨c, List.take_subset _ _ hc, hcid⟩

/-- Claim C4 (amended): when every tool call of the streamed assistant
turn carries a non-empty id, every tool-role message appended by the turn
carries a `tool_call_id` equal to the id of some tool call of the
strictly preceding assistant message, and the whole-log correlation
invariant is preserved.  (For calls whose incoming id is absent the
invariant fails — see the counterexample: the synthesized id is never
written back into the saved assistant message.) -/
theorem C4_correlation_preserved (env : JsEnv) (synth synth2 : Nat → String)
    (mcpServices : List Service) (mcpToolsCache : List (String × List ToolDef))
    (toolsAutoExecute : List (String × Bool)) (recursionDepth : Nat)
    (tool_calls : List AccToolCall) (fullContent : String)
    (results : ToolIntent → String) (log : List ConvMsg)
    (hids : ∀ c ∈ tool_calls, c.id ≠ "")
    (hbase : checkToolCorrelation [] log = true) :
    checkToolCorrelation []
      (log ++
        appendStreamedTurn env synth synth2 mcpServices mcpToolsCache
          toolsAutoExecute recursionDepth tool_calls fullContent results) =
      true := by
  rw [checkToolCorrelation_append, hbase, Bool.true_and, List.nil_append]
  unfold appendStreamedTurn
  cases hx : extractToolCalls env synth tool_calls with
  | error e => simp [checkToolCorrelation, savedAssistantMsg]
  | ok parsed =>
    simp only [savedAssistantMsg, checkToolCorrelation]
    by_cases htc : tool_calls.length > 0
    · rw [if_pos htc]
      apply checkToolCorrelation_of_all_tool
      intro m hm
      rcases List.mem_map.mp hm with ⟨intent, hintent, hmeq⟩
      refine ⟨intent.toolCallId, intent.toolName, results intent, hmeq.symm, ?_⟩
      have hpids : ∀ pc ∈ parsed, pc.id ≠ "" := by
        intro pc hpc hpc0
        have hmem := extractToolCalls_go_ids env synth tool_calls 0 parsed hx
          hids pc hpc
        rcases List.mem_map.mp hmem with ⟨c, hc, hcid⟩
        exact hids c hc (by rw [← hpc0, hcid])
      have hin := dispatch_intent_ids synth2 mcpServices mcpToolsCache
        toolsAutoExecute recursionDepth parsed hpids intent hintent
      rcases List.mem_map.mp hin with ⟨pc, hpc, hpcid⟩
      have hmem := extractToolCalls_go_ids env synth tool_calls 0 parsed hx
        hids pc hpc
      rw [hpcid] at hmem
      exact List.mem_append_right _ hmem
    · have htc0 : tool_calls = [] := by
        simpa using htc
      subst htc0
      have hparsed : parsed = [] := by
        simp only [extractToolCalls, extractToolCalls.go] at hx
        injection hx with hx
        exact hx.symm
      subst hparsed
      simp [handleFunctionCallsDispatch, turnToolMessages, partitionCalls,
        checkToolCorrelation, MAX_RECURSION_DEPTH]
      split <;> simp [checkToolCorrelation]

/-- Witness for C4 (amended): one streamed tool call with the non-empty
id `call_1`, auto-routed and executed; the appended log passes the
correlation check. -/
theorem C4_correlation_preserved_witness :
    checkToolCorrelation []
      ([] ++
        appendStreamedTurn inertEnv synthGen synthGen2 servicesC4 toolsCacheC4
          autoMapC4 0
          [{ id := "call_1", ctype := "function", name := "lookup"
             arguments := "" }] "" (fun _ => "result")) = true :=
  C4_correlation_preserved inertEnv synthGen synthGen2 servicesC4 toolsCacheC4
    autoMapC4 0
    [{ id := "call_1", ctype := "function", name := "lookup", arguments := "" }]
    "" (fun _ => "result") [] (by decide) (by decide)

/-- Counterexample to claim C4 as stated: a streamed tool call whose
incoming id is absent (the accumulator's initial `''` survives).  The
dispatched call gets a synthesized `toolCallId`, the executed tool-role
message carries it, but the saved assistant message still holds the empty
id, so no preceding assistant message contains the synthesized id and the
correlation invariant fails. -/
theorem C4_counterexample :
    checkToolCorrelation []
      ([] ++
        appendStreamedTurn inertEnv synthGen synthGen2 servicesC4 toolsCacheC4
          autoMapC4 0 toolCallsC4 "" (fun _ => "result")) = false := by
  decide

/-! ## C8: validation is a no-op on conforming input -/

theorem typeNormalize_id (env : JsEnv) (pt : Option String) (v : JSValue)
    (h : typeMatches pt v) : typeNormalize env pt v = v := by
  rcases pt with _ | t
  · simp [typeNormalize]
  · by_cases h1 : t = "string"
    · subst h1
      have hv : typeofJS v = "string" := h
      simp [typeNormalize, hv]
    · by_cases h2 : t = "number"
      · subst h2
        have hv : typeofJS v = "number" := h
        cases v <;> simp_all [typeofJS, typeNormalize]
      · by_cases h3 : t = "integer"
        · subst h3
          have hv : typeofJS v = "number" := h
          cases v <;> simp_all [typeofJS, typeNormalize]
        · by_cases h4 : t = "boolean"
          · subst h4
            have hv : typeofJS v = "boolean" := h
            simp [typeNormalize, hv]
          · by_cases h5 : t = "array"
            · subst h5
              have hv : isArrayJS v = true := h
              simp [typeNormalize, hv]
            · by_cases h6 : t = "object"
              · subst h6
                have hv : typeofJS v = "object" := h
                simp [typeNormalize, hv]
              · simp [typeNormalize, h1, h2, h3, h4, h5, h6]

theorem checkRequired_ok (fields : List (String × JSValue)) (req : List String)
    (h : ∀ r ∈ req, ∃ v, objGet fields r = some v ∧ v ≠ JSValue.vNull) :
    checkRequired fields req = .ok () := by
  induction req with
  | nil => rfl
  | cons r rest ih =>
    obtain ⟨v, hv, hnn⟩ := h r (List.mem_cons_self r rest)
    have htail : checkRequired fields rest = .ok () :=
      ih (fun x hx => h x (List.mem_cons_of_mem _ hx))
    unfold checkRequired
    rw [hv]
    cases v
    case vNull => exact absurd rfl hnn
    all_goals exact htail

theorem processEntries_id (env : JsEnv) (props : List (String × ParamSchema))
    (required : List String) (fields : List (String × JSValue))
    (h : ∀ pv ∈ fields, ∀ q ∈ props, q.1 = pv.1 →
        typeMatches q.2.ptype pv.2 ∧
        (∀ l, q.2.enumVals = some l → jsIncludes l pv.2 = true)) :
    processEntries env props required fields = .ok fields := by
  induction fields with
  | nil => rfl
  | cons pv rest ih =>
    obtain ⟨p, v⟩ := pv
    have htail : processEntries env props required rest = .ok rest :=
      ih (fun x hx => h x (List.mem_cons_of_mem _ hx))
    rcases hf : props.find? (fun q => q.1 = p) with _ | q
    · simp only [processEntries, hf, htail, Except.map]
    · have hq1 : q.1 = p := by
        have := List.find?_some hf
        simpa using this
      have hqmem : q ∈ props := List.mem_of_find?_eq_some hf
      have hm := h (p, v) (List.mem_cons_self _ rest) q hqmem hq1
      have hnorm : normalizeParam env q.2 v = .ok v := by
        unfold normalizeParam
        rw [typeNormalize_id env q.2.ptype v hm.1]
        rcases he : q.2.enumVals with _ | l
        · simp [he]
        · have hinc : jsIncludes l v = true := hm.2 l he
          simp [he, hinc]
      simp only [processEntries, hf, hnorm, htail, Except.map]

/-- Claim C8: for a tool whose schema is available, validating an
arguments object that already conforms to the schema — every required
field present and non-null, every declared field of its declared type,
every enum field a member of its enum — returns the arguments unchanged:
coercion is a no-op on conforming input. -/
theorem C8_validation_noop_on_conforming (env : JsEnv)
    (mcpToolsCache : List (String × List ToolDef)) (toolName serviceId : String)
    (fields : List (String × JSValue)) (sid : String) (tools : List ToolDef)
    (td : ToolDef) (schema : InputSchema)
    (hcache : mcpToolsCache.find? (fun p => p.1 = serviceId) = some (sid, tools))
    (htool : tools.find? (fun t => t.name = toolName) = some td)
    (hschema : td.inputSchema = some schema)
    (hreq : ∀ r ∈ schema.required.getD [],
        ∃ v, objGet fields r = some v ∧ v ≠ JSValue.vNull)
    (hconf : ∀ pv ∈ fields, ∀ q ∈ schema.properties.getD [], q.1 = pv.1 →
        typeMatches q.2.ptype pv.2 ∧
        (∀ l, q.2.enumVals = some l → jsIncludes l pv.2 = true)) :
    validateAndNormalizeToolArgs env mcpToolsCache toolName (.vObj fields)
        serviceId = .ok (.vObj fields) := by
  unfold validateAndNormalizeToolArgs
  simp only [hcache, htool, hschema, checkRequired_ok fields _ hreq,
    processEntries_id env _ _ fields hconf]

/-- Witness for C8: the schema of `ip_lookup` with conforming arguments
(required string present, enum member valid, one undeclared extra field). -/
theorem C8_validation_noop_on_conforming_witness :
    validateAndNormalizeToolArgs inertEnv validationCacheC8 "ip_lookup"
        (.vObj argsC8) "svc" = .ok (.vObj argsC8) :=
  C8_validation_noop_on_conforming inertEnv validationCacheC8 "ip_lookup" "svc"
    argsC8 "svc" [ipToolDefC8] ipToolDefC8 ipSchemaC8 rfl rfl rfl
    (by
      intro r hr
      simp only [ipSchemaC8, Option.getD_some, List.mem_singleton] at hr
      subst hr
      exact ⟨JSValue.vStr "1.2.3.4", rfl, fun h => JSValue.noConfusion h⟩)
    (by
      intro pv hpv q hq hq1
      simp only [argsC8, List.mem_cons, List.not_mem_nil, or_false] at hpv
      simp only [ipSchemaC8, Option.getD_some, List.mem_cons,
        List.not_mem_nil, or_false] at hq
      rcases hpv with hpv | hpv | hpv <;> rcases hq with hq | hq <;>
        subst hpv <;> subst hq <;> simp_all [typeMatches, typeofJS] <;>
        (try (intro l hl; injection hl with hl; subst hl)) <;> decide)

/-! ## C10: the request window is the last ten history messages -/

theorem jsSliceLast_append_of_length (n : Nat) (old l : List HistMsg)
    (h : l.length = n) : jsSliceLast n (old ++ l) = l := by
  unfold jsSliceLast
  rw [List.length_append, h]
  have heq : old.length + n - n = old.length := by omega
  rw [heq]
  exact List.drop_left old l

theorem jsSliceLast_self_of_length (n : Nat) (l : List HistMsg)
    (h : l.length = n) : jsSliceLast n l = l := by
  unfold jsSliceLast
  rw [h]
  simp

theorem jsSliceLast_length_le (n : Nat) (l : List HistMsg) :
    (jsSliceLast n l).length ≤ n := by
  unfold jsSliceLast
  simp only [List.length_drop]
  omega

theorem pushHistMsg_length_le (b : Bool) (fb : String) (m : HistMsg) :
    (pushHistMsg b fb m).length ≤ 1 := by
  unfold pushHistMsg
  rcases h1 : m.role <;> rcases h3 : m.tool_calls <;>
    simp only [h1, h3] <;> (repeat' split) <;> simp

theorem length_flatMap_le_of_le_one (l : List HistMsg)
    (f : HistMsg → List OutMsg) (hf : ∀ a, (f a).length ≤ 1) :
    (l.flatMap f).length ≤ l.length := by
  induction l with
  | nil => simp
  | cons a r ih =>
    simp only [List.flatMap_cons, List.length_append, List.length_cons]
    have := hf a
    omega

/-- Claim C10: the message array built for a model request contains only
the most recent `maxMessageHistory` (10) history messages, plus the
optional system prompt and the current query: prepending any older
conversation messages to a ten-message history leaves the built request
unchanged (they are silently omitted), and for any history the number of
built messages never exceeds 1 (system) + 10 (history window) + 1
(query). -/
theorem C10_history_window (cfgIncludeToolResults : Option Bool)
    (fallbackCallId query : String) (old recent : List HistMsg)
    (systemPrompt : Option String) (includeToolResults : Option Bool)
    (h : recent.length = DefaultConfig.uiMaxMessageHistory) :
    buildMessages cfgIncludeToolResults fallbackCallId query (old ++ recent)
        systemPrompt includeToolResults =
      buildMessages cfgIncludeToolResults fallbackCallId query recent
        systemPrompt includeToolResults ∧
    ∀ history : List HistMsg,
      (buildMessages cfgIncludeToolResults fallbackCallId query history
          systemPrompt includeToolResults).length ≤
        1 + DefaultConfig.uiMaxMessageHistory + 1 := by
  constructor
  · unfold buildMessages
    rw [jsSliceLast_append_of_length _ old recent h,
      jsSliceLast_self_of_length _ recent h]
  · intro history
    unfold buildMessages
    simp only [List.length_append]
    have hsys :
        (match systemPrompt with
          | some sp =>
            [({ role := .system, content := some sp, tool_calls := none
                tool_call_id := none, name := none } : OutMsg)]
          | none => []).length ≤ 1 := by
      cases systemPrompt <;> simp
    have hhist :
        ((jsSliceLast DefaultConfig.uiMaxMessageHistory history).flatMap
            (pushHistMsg
              (match includeToolResults with
                | some b => b
                | none =>
                  match cfgIncludeToolResults with
                  | some b => b
                  | none => DefaultConfig.uiIncludeToolResults)
              fallbackCallId)).length ≤
          DefaultConfig.uiMaxMessageHistory := by
      calc ((jsSliceLast DefaultConfig.uiMaxMessageHistory history).flatMap
              _).length ≤
          (jsSliceLast DefaultConfig.uiMaxMessageHistory history).length :=
            length_flatMap_le_of_le_one _ _ (fun a => pushHistMsg_length_le _ _ a)
        _ ≤ DefaultConfig.uiMaxMessageHistory := jsSliceLast_length_le _ _
    have hq :
        (if
            (match (jsSliceLast DefaultConfig.uiMaxMessageHistory
                history).getLast? with
              | some lm =>
                lm.role == MsgRole.user &&
                  (match lm.content with
                    | some c => c == query
                    | none => false)
              | none => false) =
            true then
          ([] : List OutMsg)
        else
          [{ role := .user, content := some query, tool_calls := none
             tool_call_id := none, name := none }]).length ≤ 1 := by
      split <;> simp
    omega

/-- Witness for C10: one old user message prepended to a ten-message
history does not change the built request. -/
theorem C10_history_window_witness :
    buildMessages none "call fb" "q"
        ([{ role := .user, content := some "old", tool_calls := none
            tool_call_id := none, toolCallId := none, name := none
            toolName := none, result := none }] ++
          List.replicate 10
            { role := .user, content := some "m", tool_calls := none
              tool_call_id := none, toolCallId := none, name := none
              toolName := none, result := none })
        none none =
      buildMessages none "call fb" "q"
        (List.replicate 10
          { role := .user, content := some "m", tool_calls := none
            tool_call_id := none, toolCallId := none, name := none
            toolName := none, result := none })
        none none :=
  (C10_history_window none "call fb" "q"
      [{ role := .user, content := some "old", tool_calls := none
         tool_call_id := none, toolCallId := none, name := none
         toolName := none, result := none }]
      (List.replicate 10
        { role := .user, content := some "m", tool_calls := none
          tool_call_id := none, toolCallId := none, name := none
          toolName := none, result := none })
      none none (by decide)).1

end SocAgent
